import Mathlib

/-!
Verification of the embedded vector database (files `src/storage.rs`,
`src/db.rs`, `src/models.rs`) against its natural-language specification.

The development is a shallow embedding:

* bytes are natural numbers (encoders only produce values `< 256`);
* `f32` vector components are modelled as rationals `ℚ` (the claims under
  study never depend on floating-point rounding, only on positions,
  lengths and order; the `sqrt` applied by `search` is modelled by
  `Real.sqrt` in theorem statements);
* JSON metadata (`serde_json::Value`) is modelled by the inductive `Json`
  below, with numbers restricted to integers; `serde_json::to_string` /
  `from_slice` are modelled by the executable `jsonSerialize` /
  `jsonParse` pair;
* file I/O becomes explicit state: the byte contents of `data.log` after
  its 32-byte header, the `f32` contents of `vectors.bin` after its
  header, and — crucially — the `vectors.bin` file-handle cursor, which
  `Storage::append_vector` uses for writing while computing the returned
  id from the file *length* (`src/storage.rs` lines 173-193).
-/

namespace VecDb

/-- Big-endian 4-byte encoding of a `u32` value (`u32::to_be_bytes`). -/
def be4 (n : ℕ) : List ℕ :=
  [n / 2 ^ 24 % 256, n / 2 ^ 16 % 256, n / 2 ^ 8 % 256, n % 256]

/-- Value of a big-endian 4-byte sequence (`u32::from_be_bytes`). -/
def beVal (b0 b1 b2 b3 : ℕ) : ℕ :=
  b0 * 2 ^ 24 + b1 * 2 ^ 16 + b2 * 2 ^ 8 + b3

theorem be4_length (n : ℕ) : (be4 n).length = 4 := rfl

theorem beVal_be4 (n : ℕ) (h : n < 2 ^ 32) :
    beVal (n / 2 ^ 24 % 256) (n / 2 ^ 16 % 256) (n / 2 ^ 8 % 256) (n % 256) = n := by
  unfold beVal
  omega

theorem be4_lt (n : ℕ) : ∀ b ∈ be4 n, b < 256 := by
  intro b hb
  simp only [be4, List.mem_cons, List.mem_singleton, List.not_mem_nil, or_false] at hb
  rcases hb with rfl | rfl | rfl | rfl <;> omega

/-- One step of the bitwise CRC-32 (IEEE polynomial, reflected form
`0xEDB88320`), as computed by the `crc32fast` crate. -/
def crcByte (c : ℕ) (b : ℕ) : ℕ :=
  let step := fun (x : ℕ) => if x % 2 = 1 then (x / 2) ^^^ 0xEDB88320 else x / 2
  step (step (step (step (step (step (step (step (c ^^^ b % 256))))))))

/-- CRC-32 (IEEE) of a byte sequence, as computed by `crc32fast::Hasher`. -/
def crc32 (data : List ℕ) : ℕ :=
  (data.foldl crcByte 0xFFFFFFFF) ^^^ 0xFFFFFFFF

/-- UTF-8 validity of a byte sequence, as checked by `String::from_utf8`
(RFC 3629 well-formedness table). -/
def validUtf8 : List ℕ → Bool
  | [] => true
  | b :: r =>
    if b < 0x80 then validUtf8 r
    else if 0xC2 ≤ b ∧ b ≤ 0xDF then
      match r with
      | c1 :: r' => decide (0x80 ≤ c1 ∧ c1 ≤ 0xBF) && validUtf8 r'
      | _ => false
    else if b = 0xE0 then
      match r with
      | c1 :: c2 :: r' =>
        decide (0xA0 ≤ c1 ∧ c1 ≤ 0xBF) && decide (0x80 ≤ c2 ∧ c2 ≤ 0xBF) && validUtf8 r'
      | _ => false
    else if (0xE1 ≤ b ∧ b ≤ 0xEC) ∨ b = 0xEE ∨ b = 0xEF then
      match r with
      | c1 :: c2 :: r' =>
        decide (0x80 ≤ c1 ∧ c1 ≤ 0xBF) && decide (0x80 ≤ c2 ∧ c2 ≤ 0xBF) && validUtf8 r'
      | _ => false
    else if b = 0xED then
      match r with
      | c1 :: c2 :: r' =>
        decide (0x80 ≤ c1 ∧ c1 ≤ 0x9F) && decide (0x80 ≤ c2 ∧ c2 ≤ 0xBF) && validUtf8 r'
      | _ => false
    else if b = 0xF0 then
      match r with
      | c1 :: c2 :: c3 :: r' =>
        decide (0x90 ≤ c1 ∧ c1 ≤ 0xBF) && decide (0x80 ≤ c2 ∧ c2 ≤ 0xBF) &&
          decide (0x80 ≤ c3 ∧ c3 ≤ 0xBF) && validUtf8 r'
      | _ => false
    else if 0xF1 ≤ b ∧ b ≤ 0xF3 then
      match r with
      | c1 :: c2 :: c3 :: r' =>
        decide (0x80 ≤ c1 ∧ c1 ≤ 0xBF) && decide (0x80 ≤ c2 ∧ c2 ≤ 0xBF) &&
          decide (0x80 ≤ c3 ∧ c3 ≤ 0xBF) && validUtf8 r'
      | _ => false
    else if b = 0xF4 then
      match r with
      | c1 :: c2 :: c3 :: r' =>
        decide (0x80 ≤ c1 ∧ c1 ≤ 0x8F) && decide (0x80 ≤ c2 ∧ c2 ≤ 0xBF) &&
          decide (0x80 ≤ c3 ∧ c3 ≤ 0xBF) && validUtf8 r'
      | _ => false
    else false

/-!
JSON model. `serde_json::Value` is modelled with integer numbers and with
string contents carried as raw UTF-8 byte lists. `jsonSerialize` models
`serde_json::to_string`, `jsonParse` models `serde_json::from_slice`
(recursion is bounded by explicit fuel; the top-level entry point supplies
fuel no parseable input can exhaust, since every nesting level consumes at
least one byte).
-/

/-- Model of `serde_json::Value`; numbers restricted to integers and
string contents carried as raw byte lists. -/
inductive Json where
  | null : Json
  | bool (b : Bool) : Json
  | num (n : ℤ) : Json
  | str (s : List ℕ) : Json
  | arr (xs : List Json) : Json
  | obj (kvs : List (List ℕ × Json)) : Json

/-- Decimal digit characters of a natural number, most significant first. -/
def natDigits (n : ℕ) : List ℕ :=
  if h : n < 10 then [n + 48]
  else natDigits (n / 10) ++ [n % 10 + 48]
decreasing_by exact Nat.div_lt_self (by omega) (by omega)

/-- Big-endian decimal value of digit characters (inverse of `natDigits`). -/
def digitsVal (ds : List ℕ) : ℕ :=
  ds.foldl (fun a c => 10 * a + (c - 48)) 0

/-- Hexadecimal digit character for a value below 16 (lower case letters),
as emitted in JSON `\u00XX` escapes. -/
def hexDigit (n : ℕ) : ℕ :=
  if n < 10 then n + 48 else n + 87

/-- JSON string escaping of one content byte: quote and backslash get a
backslash escape, control bytes an `\u00XX` escape, all else is literal. -/
def escByte (b : ℕ) : List ℕ :=
  if b = 34 then [92, 34]
  else if b = 92 then [92, 92]
  else if b < 32 then [92, 117, 48, 48, hexDigit (b / 16), hexDigit (b % 16)]
  else [b]

/-- JSON string escaping of a byte sequence. -/
def escBytes (s : List ℕ) : List ℕ := s.flatMap escByte

/-- Serialized form of a JSON string (quote, escaped content, quote). -/
def strSer (s : List ℕ) : List ℕ := 34 :: escBytes s ++ [34]

/-- Serialized form of a JSON integer. -/
def intSer (n : ℤ) : List ℕ :=
  if n < 0 then 45 :: natDigits n.natAbs else natDigits n.toNat

mutual

/-- Model of `serde_json::to_string` on the `Json` model (compact form,
no whitespace). -/
def jsonSerialize : Json → List ℕ
  | .null => [110, 117, 108, 108]
  | .bool true => [116, 114, 117, 101]
  | .bool false => [102, 97, 108, 115, 101]
  | .num n => intSer n
  | .str s => strSer s
  | .arr [] => [91, 93]
  | .arr (x :: xs) => 91 :: (serElems x xs ++ [93])
  | .obj [] => [123, 125]
  | .obj (kv :: kvs) => 123 :: (serMembers kv kvs ++ [125])
termination_by j => sizeOf j
decreasing_by
  all_goals simp_wf
  all_goals omega

/-- Comma-separated serialization of nonempty array elements. -/
def serElems : Json → List Json → List ℕ
  | x, [] => jsonSerialize x
  | x, y :: ys => jsonSerialize x ++ 44 :: serElems y ys
termination_by x xs => sizeOf x + sizeOf xs
decreasing_by
  all_goals simp_wf
  all_goals omega

/-- Comma-separated serialization of nonempty object members. -/
def serMembers : List ℕ × Json → List (List ℕ × Json) → List ℕ
  | (k, v), [] => strSer k ++ 58 :: jsonSerialize v
  | (k, v), m :: ms => strSer k ++ 58 :: jsonSerialize v ++ 44 :: serMembers m ms
termination_by kv kvs => sizeOf kv + sizeOf kvs
decreasing_by
  all_goals simp_wf
  all_goals omega

end

/-- Whether a byte is JSON whitespace. -/
def isWs (b : ℕ) : Bool := b = 32 || b = 9 || b = 10 || b = 13

/-- Drop leading JSON whitespace. -/
def skipWs : List ℕ → List ℕ
  | [] => []
  | b :: r => if isWs b then skipWs r else b :: r

/-- Whether a byte is a decimal digit character. -/
def isDigit (b : ℕ) : Bool := 48 ≤ b && b ≤ 57

/-- Value of a hexadecimal digit character, if any. -/
def hexVal (b : ℕ) : Option ℕ :=
  if 48 ≤ b ∧ b ≤ 57 then some (b - 48)
  else if 97 ≤ b ∧ b ≤ 102 then some (b - 87)
  else if 65 ≤ b ∧ b ≤ 70 then some (b - 55)
  else none

/-- Resolved content byte of a single-character JSON escape, if the
escape is legal. -/
def escChar (e : ℕ) : Option ℕ :=
  if e = 34 then some 34
  else if e = 92 then some 92
  else if e = 47 then some 47
  else if e = 98 then some 8
  else if e = 102 then some 12
  else if e = 110 then some 10
  else if e = 114 then some 13
  else if e = 116 then some 9
  else none

/-- Parse the body of a JSON string after the opening quote, returning the
unescaped content bytes and the rest of the input. -/
def parseStr : List ℕ → Option (List ℕ × List ℕ)
  | [] => none
  | b :: r =>
    if b = 34 then some ([], r)
    else if b = 92 then
      match r with
      | [] => none
      | e :: r1 =>
        if e = 117 then
          match r1 with
          | h1 :: h2 :: h3 :: h4 :: r2 =>
            match hexVal h1, hexVal h2, hexVal h3, hexVal h4 with
            | some v1, some v2, some v3, some v4 =>
              let v := ((v1 * 16 + v2) * 16 + v3) * 16 + v4
              if v < 256 then (parseStr r2).map (fun p => (v :: p.1, p.2)) else none
            | _, _, _, _ => none
          | _ => none
        else
          match escChar e with
          | some c => (parseStr r1).map (fun p => (c :: p.1, p.2))
          | none => none
    else if b < 32 then none
    else (parseStr r).map (fun p => (b :: p.1, p.2))

/-- Parse a nonempty run of decimal digit characters. -/
def parseDigits (bs : List ℕ) : Option (ℕ × List ℕ) :=
  let ds := bs.takeWhile (fun b => isDigit b)
  if ds.isEmpty then none else some (digitsVal ds, bs.dropWhile (fun b => isDigit b))

mutual

/-- Model of the `serde_json` value parser (fuel-bounded; every recursive
call strictly decreases the fuel, and each nesting level of a parseable
input consumes at least one byte, so fuel `length + 1` always suffices).
Returns the parsed value and the unconsumed rest. -/
def parseJson : ℕ → List ℕ → Option (Json × List ℕ)
  | 0, _ => none
  | f + 1, bs =>
    match skipWs bs with
    | [] => none
    | b :: r =>
      if b = 110 then
        match r with
        | 117 :: 108 :: 108 :: r1 => some (.null, r1)
        | _ => none
      else if b = 116 then
        match r with
        | 114 :: 117 :: 101 :: r1 => some (.bool true, r1)
        | _ => none
      else if b = 102 then
        match r with
        | 97 :: 108 :: 115 :: 101 :: r1 => some (.bool false, r1)
        | _ => none
      else if b = 34 then (parseStr r).map (fun p => (.str p.1, p.2))
      else if b = 45 then (parseDigits r).map (fun p => (.num (-(p.1 : ℤ)), p.2))
      else if b = 91 then
        match skipWs r with
        | [] => none
        | c :: r1 =>
          if c = 93 then some (.arr [], r1)
          else (parseElems f (c :: r1)).map (fun p => (.arr p.1, p.2))
      else if b = 123 then
        match skipWs r with
        | [] => none
        | c :: r1 =>
          if c = 125 then some (.obj [], r1)
          else (parseMembers f (c :: r1)).map (fun p => (.obj p.1, p.2))
      else if isDigit b then (parseDigits (b :: r)).map (fun p => (.num (p.1 : ℤ), p.2))
      else none

/-- Parse one or more comma-separated array elements up to the closing
bracket (fuel-bounded). -/
def parseElems : ℕ → List ℕ → Option (List Json × List ℕ)
  | 0, _ => none
  | f + 1, bs =>
    match parseJson f bs with
    | none => none
    | some (x, r) =>
      match skipWs r with
      | [] => none
      | c :: r1 =>
        if c = 44 then (parseElems f r1).map (fun p => (x :: p.1, p.2))
        else if c = 93 then some ([x], r1)
        else none

/-- Parse one or more comma-separated object members up to the closing
brace (fuel-bounded). -/
def parseMembers : ℕ → List ℕ → Option (List (List ℕ × Json) × List ℕ)
  | 0, _ => none
  | f + 1, bs =>
    match skipWs bs with
    | [] => none
    | b :: r =>
      if b = 34 then
        match parseStr r with
        | none => none
        | some (k, r1) =>
          match skipWs r1 with
          | [] => none
          | c :: r2 =>
            if c = 58 then
              match parseJson f r2 with
              | none => none
              | some (v, r3) =>
                match skipWs r3 with
                | [] => none
                | d :: r4 =>
                  if d = 44 then (parseMembers f r4).map (fun p => ((k, v) :: p.1, p.2))
                  else if d = 125 then some ([(k, v)], r4)
                  else none
            else none
      else none

end

/-- Model of `serde_json::from_slice::<Value>`: parse with ample fuel and
require the input to be fully consumed (up to trailing whitespace). -/
def jsonParse (bs : List ℕ) : Option Json :=
  match parseJson (bs.length + 1) bs with
  | some (v, r) => if skipWs r = [] then some v else none
  | none => none

/-!
Round trip: parsing a serialized JSON value yields the value back. This
is the key fact behind claims C3, C5 and C8: metadata survives the trip
through `serde_json::to_string`, the byte log, and
`serde_json::from_slice`.
-/

mutual

/-- Fuel sufficient for `parseJson` to parse a serialized value. -/
def jfuel : Json → ℕ
  | .null => 1
  | .bool _ => 1
  | .num _ => 1
  | .str _ => 1
  | .arr xs => 1 + efuel xs
  | .obj kvs => 1 + mfuel kvs
termination_by j => sizeOf j
decreasing_by
  all_goals simp_wf
  all_goals omega

/-- Fuel sufficient for `parseElems` on serialized array elements. -/
def efuel : List Json → ℕ
  | [] => 0
  | x :: xs => 1 + jfuel x + efuel xs
termination_by xs => sizeOf xs
decreasing_by
  all_goals simp_wf
  all_goals omega

/-- Fuel sufficient for `parseMembers` on serialized object members. -/
def mfuel : List (List ℕ × Json) → ℕ
  | [] => 0
  | (_, v) :: ms => 1 + jfuel v + mfuel ms
termination_by ms => sizeOf ms
decreasing_by
  all_goals simp_wf
  all_goals omega

end

theorem jfuel_pos (j : Json) : 1 ≤ jfuel j := by
  cases j <;> simp [jfuel] <;> omega

theorem natDigits_ne_nil (n : ℕ) : natDigits n ≠ [] := by
  unfold natDigits
  split
  · simp
  · simp

theorem natDigits_mem (n : ℕ) : ∀ c ∈ natDigits n, 48 ≤ c ∧ c ≤ 57 := by
  induction n using natDigits.induct with
  | case1 n h =>
    intro c hc
    rw [natDigits, dif_pos h] at hc
    simp at hc
    omega
  | case2 n h ih =>
    intro c hc
    rw [natDigits, dif_neg h] at hc
    rcases List.mem_append.mp hc with h1 | h1
    · exact ih c h1
    · simp at h1
      omega

theorem digitsVal_natDigits (n : ℕ) : digitsVal (natDigits n) = n := by
  induction n using natDigits.induct with
  | case1 n h =>
    rw [natDigits, dif_pos h]
    simp [digitsVal]
  | case2 n h ih =>
    rw [natDigits, dif_neg h]
    unfold digitsVal at ih ⊢
    rw [List.foldl_append]
    rw [ih]
    simp
    omega

/-- Whether the head of a byte list, if any, is not a decimal digit. -/
def headNotDigit : List ℕ → Bool
  | [] => true
  | c :: _ => !isDigit c

theorem takeWhile_digits_append (l rest : List ℕ) (hl : ∀ c ∈ l, isDigit c = true)
    (hr : headNotDigit rest = true) :
    (l ++ rest).takeWhile (fun b => isDigit b) = l ∧
      (l ++ rest).dropWhile (fun b => isDigit b) = rest := by
  induction l with
  | nil =>
    simp only [List.nil_append]
    cases rest with
    | nil => simp
    | cons c r =>
      simp [headNotDigit] at hr
      simp [List.takeWhile, List.dropWhile, hr]
  | cons c l ih =>
    have hc : isDigit c = true := hl c (by simp)
    have ih2 := ih (fun d hd => hl d (by simp [hd]))
    simp [List.takeWhile, List.dropWhile, hc, ih2.1, ih2.2]

theorem parseDigits_natDigits (n : ℕ) (rest : List ℕ) (hr : headNotDigit rest = true) :
    parseDigits (natDigits n ++ rest) = some (n, rest) := by
  have hd : ∀ c ∈ natDigits n, isDigit c = true := by
    intro c hc
    have := natDigits_mem n c hc
    simp [isDigit]
    omega
  have h := takeWhile_digits_append (natDigits n) rest hd hr
  unfold parseDigits
  rw [h.1, h.2]
  simp [natDigits_ne_nil, digitsVal_natDigits]

theorem hexVal_hexDigit (x : ℕ) (h : x < 16) : hexVal (hexDigit x) = some x := by
  by_cases h10 : x < 10
  · unfold hexDigit
    rw [if_pos h10]
    unfold hexVal
    rw [if_pos (by omega)]
    congr 1
  · unfold hexDigit
    rw [if_neg h10]
    unfold hexVal
    rw [if_neg (by omega), if_pos (by omega)]
    congr 1

theorem parseStr_quote (r : List ℕ) : parseStr (34 :: r) = some ([], r) := by
  rw [parseStr.eq_def]
  simp

theorem parseStr_esc (e c : ℕ) (r : List ℕ) (he : escChar e = some c) (hu : e ≠ 117) :
    parseStr (92 :: e :: r) = (parseStr r).map (fun p => (c :: p.1, p.2)) := by
  rw [parseStr.eq_def]
  simp [hu, he]

theorem parseStr_uesc (h1 h2 h3 h4 : ℕ) (v1 v2 v3 v4 : ℕ) (r : List ℕ)
    (e1 : hexVal h1 = some v1) (e2 : hexVal h2 = some v2) (e3 : hexVal h3 = some v3)
    (e4 : hexVal h4 = some v4) (hv : ((v1 * 16 + v2) * 16 + v3) * 16 + v4 < 256) :
    parseStr (92 :: 117 :: h1 :: h2 :: h3 :: h4 :: r) =
      (parseStr r).map (fun p => ((((v1 * 16 + v2) * 16 + v3) * 16 + v4) :: p.1, p.2)) := by
  rw [parseStr.eq_def]
  simp [e1, e2, e3, e4, hv]

theorem parseStr_plain (b : ℕ) (r : List ℕ) (h34 : b ≠ 34) (h92 : b ≠ 92)
    (hctl : ¬b < 32) :
    parseStr (b :: r) = (parseStr r).map (fun p => (b :: p.1, p.2)) := by
  rw [parseStr.eq_def]
  simp [h34, h92, hctl]

theorem parseStr_escBytes (s rest : List ℕ) :
    parseStr (escBytes s ++ 34 :: rest) = some (s, rest) := by
  induction s with
  | nil =>
    simp only [escBytes, List.flatMap_nil, List.nil_append]
    exact parseStr_quote rest
  | cons b s ih =>
    have hesc : escBytes (b :: s) = escByte b ++ escBytes s := by
      simp [escBytes]
    rw [hesc, List.append_assoc]
    by_cases h34 : b = 34
    · subst h34
      rw [show escByte 34 = [92, 34] from rfl]
      simp only [List.cons_append, List.nil_append]
      rw [parseStr_esc 34 34 _ rfl (by omega), ih]
      rfl
    · by_cases h92 : b = 92
      · subst h92
        rw [show escByte 92 = [92, 92] from rfl]
        simp only [List.cons_append, List.nil_append]
        rw [parseStr_esc 92 92 _ rfl (by omega), ih]
        rfl
      · by_cases hctl : b < 32
        · rw [show escByte b = [92, 117, 48, 48, hexDigit (b / 16), hexDigit (b % 16)] from
            by unfold escByte; rw [if_neg h34, if_neg h92, if_pos hctl]]
          simp only [List.cons_append, List.nil_append]
          rw [parseStr_uesc 48 48 (hexDigit (b / 16)) (hexDigit (b % 16)) 0 0 (b / 16)
            (b % 16) _ rfl rfl (hexVal_hexDigit _ (by omega)) (hexVal_hexDigit _ (by omega))
            (by omega), ih]
          simp
          omega
        · rw [show escByte b = [b] from by unfold escByte; rw [if_neg h34, if_neg h92, if_neg hctl]]
          simp only [List.cons_append, List.nil_append]
          rw [parseStr_plain b _ h34 h92 hctl, ih]
          rfl

theorem skipWs_cons (b : ℕ) (r : List ℕ) (h : isWs b = false) :
    skipWs (b :: r) = b :: r := by
  simp [skipWs, h]

theorem serHead (j : Json) :
    ∃ b t, jsonSerialize j = b :: t ∧ isWs b = false ∧ b ≠ 93 := by
  cases j with
  | null => exact ⟨110, [117, 108, 108], by simp [jsonSerialize], rfl, by omega⟩
  | bool b =>
    cases b with
    | true => exact ⟨116, [114, 117, 101], by simp [jsonSerialize], rfl, by omega⟩
    | false => exact ⟨102, [97, 108, 115, 101], by simp [jsonSerialize], rfl, by omega⟩
  | num n =>
    by_cases hn : n < 0
    · refine ⟨45, natDigits n.natAbs, ?_, rfl, by omega⟩
      simp [jsonSerialize, intSer, hn]
    · obtain ⟨c, t, hct⟩ : ∃ c t, natDigits n.toNat = c :: t := by
        cases hnd : natDigits n.toNat with
        | nil => exact absurd hnd (natDigits_ne_nil _)
        | cons c t => exact ⟨c, t, rfl⟩
      have hcd := natDigits_mem n.toNat c (by rw [hct]; simp)
      refine ⟨c, t, ?_, ?_, by omega⟩
      · simp [jsonSerialize, intSer, hn, hct]
      · simp [isWs]
        omega
  | str s => exact ⟨34, escBytes s ++ [34], by simp [jsonSerialize, strSer], rfl, by omega⟩
  | arr xs =>
    cases xs with
    | nil => exact ⟨91, [93], by simp [jsonSerialize], rfl, by omega⟩
    | cons x xs => exact ⟨91, serElems x xs ++ [93], by simp [jsonSerialize], rfl, by omega⟩
  | obj kvs =>
    cases kvs with
    | nil => exact ⟨123, [125], by simp [jsonSerialize], rfl, by omega⟩
    | cons kv kvs => exact ⟨123, serMembers kv kvs ++ [125], by simp [jsonSerialize], rfl, by omega⟩

theorem serElems_head (x : Json) (xs : List Json) :
    ∃ b t, serElems x xs = b :: t ∧ isWs b = false ∧ b ≠ 93 := by
  obtain ⟨b, t, hbt, hws, h93⟩ := serHead x
  cases xs with
  | nil => exact ⟨b, t, by simp [serElems, hbt], hws, h93⟩
  | cons y ys =>
    exact ⟨b, t ++ 44 :: serElems y ys, by simp [serElems, hbt], hws, h93⟩

theorem parse_ser (fuel : ℕ) :
    (∀ j rest, jfuel j ≤ fuel → headNotDigit rest = true →
      parseJson fuel (jsonSerialize j ++ rest) = some (j, rest)) ∧
    (∀ x xs rest, efuel (x :: xs) ≤ fuel →
      parseElems fuel (serElems x xs ++ 93 :: rest) = some (x :: xs, rest)) ∧
    (∀ k v ms rest, mfuel ((k, v) :: ms) ≤ fuel →
      parseMembers fuel (serMembers (k, v) ms ++ 125 :: rest) = some ((k, v) :: ms, rest)) := by
  induction fuel with
  | zero =>
    refine ⟨fun j _ hf _ => absurd hf (by have := jfuel_pos j; omega),
      fun x xs _ hf => absurd hf (by simp [efuel]),
      fun k v ms _ hf => absurd hf (by simp [mfuel])⟩
  | succ f ih =>
    refine ⟨?_, ?_, ?_⟩
    · intro j rest hf hrest
      cases j with
      | null =>
        rw [show jsonSerialize .null = [110, 117, 108, 108] from by simp [jsonSerialize]]
        simp [parseJson, skipWs, isWs]
      | bool b =>
        cases b with
        | true =>
          rw [show jsonSerialize (.bool true) = [116, 114, 117, 101] from by
            simp [jsonSerialize]]
          simp [parseJson, skipWs, isWs]
        | false =>
          rw [show jsonSerialize (.bool false) = [102, 97, 108, 115, 101] from by
            simp [jsonSerialize]]
          simp [parseJson, skipWs, isWs]
      | str s =>
        rw [show jsonSerialize (.str s) = 34 :: (escBytes s ++ [34]) from by
          simp [jsonSerialize, strSer]]
        rw [List.cons_append]
        simp only [parseJson]
        rw [skipWs_cons 34 _ rfl]
        simp only []
        norm_num
        rw [parseStr_escBytes s rest]
      | num n =>
        by_cases hn : n < 0
        · rw [show jsonSerialize (.num n) = 45 :: natDigits n.natAbs from by
            simp [jsonSerialize, intSer, hn]]
          rw [List.cons_append]
          simp only [parseJson]
          rw [skipWs_cons 45 _ rfl]
          simp only []
          norm_num
          rw [parseDigits_natDigits n.natAbs rest hrest]
          have hAbs : ((n.natAbs : ℤ)) = -n := by omega
          simp [hAbs]
        · obtain ⟨c, t, hct⟩ : ∃ c t, natDigits n.toNat = c :: t := by
            cases hnd : natDigits n.toNat with
            | nil => exact absurd hnd (natDigits_ne_nil _)
            | cons c t => exact ⟨c, t, rfl⟩
          have hcd := natDigits_mem n.toNat c (by rw [hct]; simp)
          rw [show jsonSerialize (.num n) = natDigits n.toNat from by
            simp [jsonSerialize, intSer, hn]]
          rw [hct, List.cons_append]
          simp only [parseJson]
          rw [skipWs_cons c _ (by simp [isWs]; omega)]
          simp only []
          rw [if_neg (by omega : ¬c = 110), if_neg (by omega : ¬c = 116),
            if_neg (by omega : ¬c = 102), if_neg (by omega : ¬c = 34),
            if_neg (by omega : ¬c = 45), if_neg (by omega : ¬c = 91),
            if_neg (by omega : ¬c = 123),
            if_pos (show isDigit c = true from by simp [isDigit]; omega)]
          rw [show c :: (t ++ rest) = (c :: t) ++ rest from rfl, ← hct]
          rw [parseDigits_natDigits n.toNat rest hrest]
          have hTo : ((n.toNat : ℤ)) = n := Int.toNat_of_nonneg (by omega)
          simp [hTo]
      | arr xs =>
        cases xs with
        | nil =>
          rw [show jsonSerialize (.arr []) = [91, 93] from by simp [jsonSerialize]]
          simp [parseJson, skipWs, isWs]
        | cons x xs =>
          obtain ⟨b, t, hbt, hws, h93⟩ := serElems_head x xs
          rw [show jsonSerialize (.arr (x :: xs)) = 91 :: (serElems x xs ++ [93]) from by
            simp [jsonSerialize]]
          rw [List.cons_append]
          simp only [parseJson]
          rw [skipWs_cons 91 _ rfl]
          simp only []
          norm_num
          rw [hbt, List.cons_append, skipWs_cons b _ hws]
          simp only []
          rw [if_neg h93, ← List.cons_append, ← hbt]
          rw [ih.2.1 x xs rest (by simp [jfuel, efuel] at hf ⊢; omega)]
          rfl
      | obj kvs =>
        cases kvs with
        | nil =>
          rw [show jsonSerialize (.obj []) = [123, 125] from by simp [jsonSerialize]]
          simp [parseJson, skipWs, isWs]
        | cons kv kvs =>
          obtain ⟨k, v⟩ := kv
          have hsm : ∃ t, serMembers (k, v) kvs = 34 :: t := by
            cases kvs with
            | nil => exact ⟨escBytes k ++ [34] ++ 58 :: jsonSerialize v, by
                simp [serMembers, strSer]⟩
            | cons m ms => exact ⟨escBytes k ++ [34] ++ 58 :: (jsonSerialize v ++
                44 :: serMembers m ms), by simp [serMembers, strSer]⟩
          obtain ⟨t, ht⟩ := hsm
          rw [show jsonSerialize (.obj ((k, v) :: kvs)) =
            123 :: (serMembers (k, v) kvs ++ [125]) from by simp [jsonSerialize]]
          rw [List.cons_append]
          simp only [parseJson]
          rw [skipWs_cons 123 _ rfl]
          simp only []
          norm_num
          rw [ht, List.cons_append, skipWs_cons 34 _ rfl]
          simp only []
          rw [if_neg (by omega : ¬(34 : ℕ) = 125), ← List.cons_append, ← ht]
          rw [ih.2.2 k v kvs rest (by simp [jfuel, mfuel] at hf ⊢; omega)]
          rfl
    · intro x xs rest hf
      cases xs with
      | nil =>
        rw [show serElems x [] = jsonSerialize x from by simp [serElems]]
        simp only [parseElems]
        rw [ih.1 x (93 :: rest) (by simp [efuel] at hf; omega) rfl]
        simp only []
        rw [skipWs_cons 93 _ rfl]
        simp only []
        rw [if_neg (by omega : ¬(93 : ℕ) = 44), if_pos (by trivial)]
      | cons y ys =>
        rw [show serElems x (y :: ys) = jsonSerialize x ++ 44 :: serElems y ys from by
          simp [serElems]]
        rw [List.append_assoc]
        simp only [List.cons_append]
        simp only [parseElems]
        rw [ih.1 x (44 :: (serElems y ys ++ 93 :: rest))
          (by simp [efuel] at hf ⊢; omega) rfl]
        simp only []
        rw [skipWs_cons 44 _ rfl]
        simp only []
        rw [if_pos (by trivial)]
        rw [ih.2.1 y ys rest (by simp [efuel] at hf ⊢; omega)]
        rfl
    · intro k v ms rest hf
      have hkey : ∀ x : List ℕ, strSer k ++ 58 :: x = 34 :: (escBytes k ++ 34 :: 58 :: x) := by
        intro x
        simp [strSer]
      cases ms with
      | nil =>
        rw [show serMembers (k, v) [] = strSer k ++ 58 :: jsonSerialize v from by
          simp [serMembers]]
        rw [hkey, List.cons_append]
        simp only [parseMembers]
        rw [skipWs_cons 34 _ rfl]
        simp only []
        rw [if_pos (by trivial)]
        simp only [List.append_assoc, List.cons_append]
        rw [parseStr_escBytes k (58 :: (jsonSerialize v ++ 125 :: rest))]
        simp only []
        rw [skipWs_cons 58 _ rfl]
        simp only []
        rw [if_pos (by trivial)]
        rw [ih.1 v (125 :: rest) (by simp [mfuel] at hf; omega) rfl]
        simp only []
        rw [skipWs_cons 125 _ rfl]
        simp only []
        rw [if_neg (by omega : ¬(125 : ℕ) = 44), if_pos (by trivial)]
      | cons m ms =>
        rw [show serMembers (k, v) (m :: ms) =
          strSer k ++ 58 :: (jsonSerialize v ++ 44 :: serMembers m ms) from by
          simp [serMembers]]
        rw [hkey, List.cons_append]
        simp only [parseMembers]
        rw [skipWs_cons 34 _ rfl]
        simp only []
        rw [if_pos (by trivial)]
        simp only [List.append_assoc, List.cons_append]
        rw [parseStr_escBytes k (58 :: (jsonSerialize v ++ (44 :: (serMembers m ms ++
          125 :: rest))))]
        simp only []
        rw [skipWs_cons 58 _ rfl]
        simp only []
        rw [if_pos (by trivial)]
        rw [ih.1 v (44 :: (serMembers m ms ++ 125 :: rest))
          (by simp [mfuel] at hf ⊢; omega) rfl]
        simp only []
        rw [skipWs_cons 44 _ rfl]
        simp only []
        rw [if_pos (by trivial)]
        obtain ⟨mk, mv⟩ := m
        rw [ih.2.2 mk mv ms rest (by simp [mfuel] at hf ⊢; omega)]
        rfl

mutual

theorem jfuel_le_ser (j : Json) : jfuel j ≤ (jsonSerialize j).length := by
  cases j with
  | null => simp [jfuel, jsonSerialize]
  | bool b => cases b <;> simp [jfuel, jsonSerialize]
  | num n =>
    have h1 := natDigits_ne_nil n.natAbs
    have h2 := natDigits_ne_nil n.toNat
    have l1 : 1 ≤ (natDigits n.natAbs).length := by
      cases hx : natDigits n.natAbs with
      | nil => exact absurd hx h1
      | cons a t => simp
    have l2 : 1 ≤ (natDigits n.toNat).length := by
      cases hx : natDigits n.toNat with
      | nil => exact absurd hx h2
      | cons a t => simp
    simp only [jfuel, jsonSerialize, intSer]
    split <;> simp <;> omega
  | str s => simp [jfuel, jsonSerialize, strSer]
  | arr xs =>
    cases xs with
    | nil => simp [jfuel, efuel, jsonSerialize]
    | cons x tl =>
      have h := efuel_le_ser x tl
      simp only [jfuel, jsonSerialize]
      simp
      omega
  | obj kvs =>
    cases kvs with
    | nil => simp [jfuel, mfuel, jsonSerialize]
    | cons kv tl =>
      obtain ⟨k, v⟩ := kv
      have h := mfuel_le_ser k v tl
      simp only [jfuel, jsonSerialize]
      simp
      omega
termination_by sizeOf j
decreasing_by
  all_goals simp_wf
  all_goals omega

theorem efuel_le_ser (x : Json) (xs : List Json) :
    efuel (x :: xs) ≤ (serElems x xs).length + 1 := by
  cases xs with
  | nil =>
    have h := jfuel_le_ser x
    simp only [efuel, serElems]
    omega
  | cons y ys =>
    have h1 := jfuel_le_ser x
    have h2 := efuel_le_ser y ys
    simp only [efuel, serElems] at h2 ⊢
    simp
    omega
termination_by sizeOf x + sizeOf xs
decreasing_by
  all_goals simp_wf
  all_goals omega

theorem mfuel_le_ser (k : List ℕ) (v : Json) (ms : List (List ℕ × Json)) :
    mfuel ((k, v) :: ms) ≤ (serMembers (k, v) ms).length + 1 := by
  cases ms with
  | nil =>
    have h := jfuel_le_ser v
    simp only [mfuel, serMembers]
    simp
    omega
  | cons m mtl =>
    obtain ⟨mk, mv⟩ := m
    have h1 := jfuel_le_ser v
    have h2 := mfuel_le_ser mk mv mtl
    simp only [mfuel, serMembers] at h2 ⊢
    simp
    omega
termination_by sizeOf v + sizeOf ms
decreasing_by
  all_goals simp_wf
  all_goals omega

end

/-- Parsing a serialized JSON value gives back exactly that value: the
model of `serde_json::from_slice ∘ serde_json::to_string` is the
identity. -/
theorem jsonParse_serialize (j : Json) : jsonParse (jsonSerialize j) = some j := by
  unfold jsonParse
  have h := (parse_ser ((jsonSerialize j).length + 1)).1 j []
    (by have := jfuel_le_ser j; omega) rfl
  rw [List.append_nil] at h
  rw [h]
  simp [skipWs]

/-- Equality of JSON values is decidable through the injective serializer
(two values are equal exactly when their serializations agree, by the
round trip). -/
instance : DecidableEq Json := fun a b =>
  decidable_of_iff (jsonSerialize a = jsonSerialize b)
    ⟨fun h => by
      have ha := jsonParse_serialize a
      rw [h, jsonParse_serialize b] at ha
      exact (Option.some.inj ha).symm,
     fun h => by rw [h]⟩

instance {ε α : Type} [DecidableEq ε] [DecidableEq α] : DecidableEq (Except ε α) :=
  fun a b =>
  match a, b with
  | .ok x, .ok y =>
    decidable_of_iff (x = y) ⟨fun h => by rw [h], fun h => by injection h⟩
  | .error x, .error y =>
    decidable_of_iff (x = y) ⟨fun h => by rw [h], fun h => by injection h⟩
  | .ok _, .error _ => isFalse (by simp)
  | .error _, .ok _ => isFalse (by simp)

/-!
On-disk log record layer, mirroring `src/storage.rs`: the record format
`crc32 ‖ id ‖ key_len ‖ val_len ‖ tombstone ‖ key ‖ value` (all integers
big-endian `u32`, one tombstone byte), `append_log`'s encoder and
`read_record_from_stream`'s decoder.
-/

/-- Model of the error kinds of `DbError` (`src/error.rs`) relevant to the
storage and database layer. -/
inductive DbError where
  | ioEof : DbError
  | corruptUtf8 : DbError
  | corruptChecksum : DbError
  | corruptLogId : DbError
  | serde : DbError
  | notFound : DbError
  | dimensionMismatch (expected got : ℕ) : DbError
  | invalidVector : DbError
deriving DecidableEq

/-- In-memory index entry (`src/models.rs` `IndexEntry`): slot id, byte
offset of the latest log record for the key, deletion flag. -/
structure IndexEntry where
  id : ℕ
  data_offset : ℕ
  deleted : Bool
deriving DecidableEq

/-- The tombstone byte written by `append_log`. -/
def tombByte (t : Bool) : ℕ := if t then 1 else 0

/-- The byte sequence fed to the CRC hasher, in the order used by both
`append_log` and the two readers: id, key_len, val_len, tombstone byte,
key bytes, value bytes. -/
def recPayload (id klen vlen tb : ℕ) (key val : List ℕ) : List ℕ :=
  be4 id ++ be4 klen ++ be4 vlen ++ [tb] ++ key ++ val

/-- Byte encoding of one log record as written by `Storage::append_log`
(`u32` casts of the lengths wrap, hence the `% 2 ^ 32`). -/
def encodeRecord (id : ℕ) (key val : List ℕ) (t : Bool) : List ℕ :=
  let idm := id % 2 ^ 32
  let klen := key.length % 2 ^ 32
  let vlen := val.length % 2 ^ 32
  let payload := recPayload idm klen vlen (tombByte t) key val
  be4 (crc32 payload) ++ payload

theorem encodeRecord_length (id : ℕ) (key val : List ℕ) (t : Bool) :
    (encodeRecord id key val t).length = 17 + key.length + val.length := by
  simp [encodeRecord, recPayload, be4]
  omega

/-- Model of `read_u32::<BigEndian>` on a byte stream. -/
def readU32 : List ℕ → Option (ℕ × List ℕ)
  | b0 :: b1 :: b2 :: b3 :: r => some (beVal b0 b1 b2 b3, r)
  | _ => none

/-- Model of `read_u8` on a byte stream. -/
def readU8 : List ℕ → Option (ℕ × List ℕ)
  | b :: r => some (b, r)
  | _ => none

/-- Model of `read_exact` into a buffer of `n` bytes. -/
def readBytes (n : ℕ) (bs : List ℕ) : Option (List ℕ × List ℕ) :=
  if n ≤ bs.length then some (bs.take n, bs.drop n) else none

/-- Model of `Storage::read_record_from_stream`: checksum, id, key_len,
val_len, tombstone, then the key bytes (UTF-8 checked), the value bytes
(JSON parsed), and last the checksum comparison — each short read is an
unexpected-EOF I/O error. Returns the record and the unconsumed stream. -/
def readRecordStream (bs : List ℕ) : Except DbError ((ℕ × List ℕ × Json × Bool) × List ℕ) :=
  match readU32 bs with
  | none => .error .ioEof
  | some (checksum, r1) =>
    match readU32 r1 with
    | none => .error .ioEof
    | some (id, r2) =>
      match readU32 r2 with
      | none => .error .ioEof
      | some (klen, r3) =>
        match readU32 r3 with
        | none => .error .ioEof
        | some (vlen, r4) =>
          match readU8 r4 with
          | none => .error .ioEof
          | some (tb, r5) =>
            match readBytes klen r5 with
            | none => .error .ioEof
            | some (keyB, r6) =>
              if validUtf8 keyB then
                match readBytes vlen r6 with
                | none => .error .ioEof
                | some (valB, r7) =>
                  match jsonParse valB with
                  | none => .error .serde
                  | some v =>
                    if crc32 (recPayload id klen vlen tb keyB valB) = checksum then
                      .ok ((id, keyB, v, tb == 1), r7)
                    else .error .corruptChecksum
              else .error .corruptUtf8

theorem readU32_some (bs : List ℕ) (n : ℕ) (r : List ℕ) (h : readU32 bs = some (n, r)) :
    bs.length = r.length + 4 := by
  match bs with
  | [] => simp [readU32] at h
  | [b0] => simp [readU32] at h
  | [b0, b1] => simp [readU32] at h
  | [b0, b1, b2] => simp [readU32] at h
  | b0 :: b1 :: b2 :: b3 :: t =>
    simp [readU32] at h
    simp [← h.2]

theorem readU8_some (bs : List ℕ) (n : ℕ) (r : List ℕ) (h : readU8 bs = some (n, r)) :
    bs.length = r.length + 1 := by
  match bs with
  | [] => simp [readU8] at h
  | b :: t =>
    simp [readU8] at h
    simp [← h.2]

theorem readBytes_some (n : ℕ) (bs a r : List ℕ) (h : readBytes n bs = some (a, r)) :
    a = bs.take n ∧ r = bs.drop n ∧ n ≤ bs.length := by
  unfold readBytes at h
  split at h
  · simp at h
    exact ⟨h.1.symm, h.2.symm, by assumption⟩
  · simp at h

theorem readRecordStream_consume (bs : List ℕ) (rec : ℕ × List ℕ × Json × Bool)
    (rest : List ℕ) (h : readRecordStream bs = .ok (rec, rest)) :
    rest.length + 17 ≤ bs.length := by
  unfold readRecordStream at h
  split at h
  · simp at h
  next checksum r1 h1 =>
    split at h
    · simp at h
    next id r2 h2 =>
      split at h
      · simp at h
      next klen r3 h3 =>
        split at h
        · simp at h
        next vlen r4 h4 =>
          split at h
          · simp at h
          next tb r5 h5 =>
            split at h
            · simp at h
            next keyB r6 h6 =>
              split at h
              · split at h
                · simp at h
                next valB r7 h7 =>
                  split at h
                  · simp at h
                  next v h8 =>
                    split at h
                    · simp at h
                      have e1 := readU32_some _ _ _ h1
                      have e2 := readU32_some _ _ _ h2
                      have e3 := readU32_some _ _ _ h3
                      have e4 := readU32_some _ _ _ h4
                      have e5 := readU8_some _ _ _ h5
                      obtain ⟨-, hr6, hl6⟩ := readBytes_some _ _ _ _ h6
                      obtain ⟨-, hr7, hl7⟩ := readBytes_some _ _ _ _ h7
                      have l6 : r6.length = r5.length - klen := by rw [hr6]; simp
                      have l7 : r7.length = r6.length - vlen := by rw [hr7]; simp
                      rw [← h.2]
                      omega
                    · simp at h
              · simp at h

theorem crcByte_lt (c b : ℕ) (h : c < 2 ^ 32) : crcByte c b < 2 ^ 32 := by
  have hstep : ∀ x : ℕ, x < 2 ^ 32 →
      (if x % 2 = 1 then (x / 2) ^^^ 0xEDB88320 else x / 2) < 2 ^ 32 := by
    intro x hx
    split
    · exact Nat.xor_lt_two_pow (by omega) (by norm_num)
    · omega
  have h0 : c ^^^ b % 256 < 2 ^ 32 := Nat.xor_lt_two_pow h (by omega)
  simp only [crcByte]
  exact hstep _ (hstep _ (hstep _ (hstep _ (hstep _ (hstep _ (hstep _ (hstep _ h0)))))))

theorem crc32_lt (data : List ℕ) : crc32 data < 2 ^ 32 := by
  have hfold : ∀ (l : List ℕ) (acc : ℕ), acc < 2 ^ 32 → l.foldl crcByte acc < 2 ^ 32 := by
    intro l
    induction l with
    | nil => intro acc h; simpa using h
    | cons b t ih =>
      intro acc h
      simp only [List.foldl_cons]
      exact ih _ (crcByte_lt acc b h)
  unfold crc32
  exact Nat.xor_lt_two_pow (hfold data _ (by norm_num)) (by norm_num)

theorem readU32_be4 (n : ℕ) (r : List ℕ) : readU32 (be4 n ++ r) = some (n % 2 ^ 32, r) := by
  simp [be4, readU32, beVal]
  omega

theorem tombByte_beq (t : Bool) : (tombByte t == 1) = t := by
  cases t <;> rfl

/-- Decoding an encoded log record from the front of a stream succeeds and
consumes exactly the record, recovering id, key, parsed JSON value and
tombstone flag. -/
theorem readRecordStream_encode (id : ℕ) (key val : List ℕ) (t : Bool) (m : Json)
    (rest : List ℕ) (hid : id < 2 ^ 32) (hk : key.length < 2 ^ 32)
    (hv : val.length < 2 ^ 32) (hu : validUtf8 key = true)
    (hj : jsonParse val = some m) :
    readRecordStream (encodeRecord id key val t ++ rest) = .ok ((id, key, m, t), rest) := by
  unfold encodeRecord
  simp only [Nat.mod_eq_of_lt hid, Nat.mod_eq_of_lt hk, Nat.mod_eq_of_lt hv]
  unfold readRecordStream
  rw [List.append_assoc]
  rw [readU32_be4, Nat.mod_eq_of_lt (crc32_lt _)]
  simp only [recPayload, List.append_assoc]
  rw [readU32_be4, Nat.mod_eq_of_lt hid]
  simp only []
  rw [readU32_be4, Nat.mod_eq_of_lt hk]
  simp only []
  rw [readU32_be4, Nat.mod_eq_of_lt hv]
  simp only []
  rw [show ([tombByte t] ++ (key ++ (val ++ rest))) = tombByte t :: (key ++ (val ++ rest))
    from rfl]
  rw [show readU8 (tombByte t :: (key ++ (val ++ rest))) =
    some (tombByte t, key ++ (val ++ rest)) from rfl]
  simp only []
  rw [show readBytes key.length (key ++ (val ++ rest)) = some (key, val ++ rest) from by
    unfold readBytes
    rw [if_pos (by simp)]
    simp]
  simp only []
  rw [hu]
  simp only [if_true]
  rw [show readBytes val.length (val ++ rest) = some (val, rest) from by
    unfold readBytes
    rw [if_pos (by simp)]
    simp]
  simp only []
  rw [hj]
  simp only []
  rw [if_pos (by trivial), tombByte_beq]

theorem take_append_chunk (l1 l2 : List ℕ) (n : ℕ) (h : l1.length ≤ n) :
    (l1 ++ l2).take n = l1 ++ l2.take (n - l1.length) := by
  rw [List.take_append_eq_append_take, List.take_of_length_le h]

/-- A stream shorter than the 17-byte record header always fails with an
unexpected-EOF error. -/
theorem readRecordStream_short (bs : List ℕ) (h : bs.length < 17) :
    readRecordStream bs = .error .ioEof := by
  unfold readRecordStream
  split
  · rfl
  next checksum r1 h1 =>
    have e1 := readU32_some _ _ _ h1
    split
    · rfl
    next id r2 h2 =>
      have e2 := readU32_some _ _ _ h2
      split
      · rfl
      next klen r3 h3 =>
        have e3 := readU32_some _ _ _ h3
        split
        · rfl
        next vlen r4 h4 =>
          have e4 := readU32_some _ _ _ h4
          split
          · rfl
          next tb r5 h5 =>
            have e5 := readU8_some _ _ _ h5
            omega

/-- Cutting any number of bytes off the end of an encoded record makes the
stream decoder fail with an unexpected-EOF error (the declared key/value
lengths exceed what remains). -/
theorem readRecordStream_trunc (id : ℕ) (key val : List ℕ) (t : Bool)
    (hid : id < 2 ^ 32) (hk : key.length < 2 ^ 32) (hv : val.length < 2 ^ 32)
    (hu : validUtf8 key = true)
    (n : ℕ) (hn : n < (encodeRecord id key val t).length) :
    readRecordStream ((encodeRecord id key val t).take n) = .error .ioEof := by
  have hlen := encodeRecord_length id key val t
  by_cases h17 : n < 17
  · apply readRecordStream_short
    rw [List.length_take]
    omega
  · unfold encodeRecord
    simp only [Nat.mod_eq_of_lt hid, Nat.mod_eq_of_lt hk, Nat.mod_eq_of_lt hv]
    simp only [recPayload, List.append_assoc]
    rw [take_append_chunk _ _ n (by simp [be4]; omega)]
    rw [take_append_chunk _ _ _ (by simp [be4]; omega)]
    rw [take_append_chunk _ _ _ (by simp [be4]; omega)]
    rw [take_append_chunk _ _ _ (by simp [be4]; omega)]
    rw [take_append_chunk _ _ _ (by simp [be4]; omega)]
    simp only [be4_length, List.length_singleton]
    unfold readRecordStream
    rw [readU32_be4, Nat.mod_eq_of_lt (crc32_lt _)]
    simp only []
    rw [readU32_be4, Nat.mod_eq_of_lt hid]
    simp only []
    rw [readU32_be4, Nat.mod_eq_of_lt hk]
    simp only []
    rw [readU32_be4, Nat.mod_eq_of_lt hv]
    simp only []
    rw [show ([tombByte t] ++ (key ++ val).take (n - 4 - 4 - 4 - 4 - 1)) =
      tombByte t :: (key ++ val).take (n - 4 - 4 - 4 - 4 - 1) from rfl]
    rw [show readU8 (tombByte t :: (key ++ val).take (n - 4 - 4 - 4 - 4 - 1)) =
      some (tombByte t, (key ++ val).take (n - 4 - 4 - 4 - 4 - 1)) from rfl]
    simp only []
    have hu_len : ((key ++ val).take (n - 4 - 4 - 4 - 4 - 1)).length = n - 17 := by
      rw [List.length_take]
      simp
      rw [encodeRecord_length] at hn
      omega
    by_cases hkfit : key.length ≤ n - 17
    · -- the key still fits, so the value read hits EOF
      have hkeyB : readBytes key.length ((key ++ val).take (n - 4 - 4 - 4 - 4 - 1)) =
          some (key, ((key ++ val).take (n - 4 - 4 - 4 - 4 - 1)).drop key.length) := by
        unfold readBytes
        rw [if_pos (by omega)]
        congr 1
        rw [List.take_take, min_eq_left (by omega)]
        rw [List.take_append_eq_append_take]
        simp
      rw [hkeyB]
      simp only []
      rw [hu]
      simp only [if_true]
      have hvfail : readBytes val.length
          (((key ++ val).take (n - 4 - 4 - 4 - 4 - 1)).drop key.length) = none := by
        unfold readBytes
        rw [if_neg]
        rw [List.length_drop]
        rw [encodeRecord_length] at hn
        omega
      rw [hvfail]
    · -- even the key read hits EOF
      have hkfail : readBytes key.length ((key ++ val).take (n - 4 - 4 - 4 - 4 - 1)) =
          none := by
        unfold readBytes
        rw [if_neg]
        omega
      rw [hkfail]

/-!
Association-list model of the `HashMap<String, IndexEntry>` index: keys
are the UTF-8 byte lists of the Rust strings; `alistInsert` replaces an
existing binding in place (`HashMap::insert`), `alistMarkDeleted` models
`get_mut(..).deleted = true`, `alistLookup` models `get`.
-/

/-- Insert or replace a binding, like `HashMap::insert`. -/
def alistInsert : List (List ℕ × IndexEntry) → List ℕ → IndexEntry →
    List (List ℕ × IndexEntry)
  | [], k, v => [(k, v)]
  | (k0, v0) :: t, k, v =>
    if k0 = k then (k, v) :: t else (k0, v0) :: alistInsert t k v

/-- Mark the binding for a key deleted if present, like
`if let Some(entry) = map.get_mut(key) etc.`. -/
def alistMarkDeleted : List (List ℕ × IndexEntry) → List ℕ →
    List (List ℕ × IndexEntry)
  | [], _ => []
  | (k0, v0) :: t, k =>
    if k0 = k then (k0, { v0 with deleted := true }) :: t
    else (k0, v0) :: alistMarkDeleted t k

/-- Look a key up, like `HashMap::get`. -/
def alistLookup : List (List ℕ × IndexEntry) → List ℕ → Option IndexEntry
  | [], _ => none
  | (k0, v0) :: t, k => if k0 = k then some v0 else alistLookup t k

/-- One scan step on the provisional index (`src/storage.rs` lines
341-356): a tombstone marks an existing entry deleted (and is ignored for
an absent key); a put inserts/replaces the entry with the record's start
offset and `deleted = false`. -/
def applyRec (idx : List (List ℕ × IndexEntry)) (id : ℕ) (key : List ℕ)
    (tomb : Bool) (off : ℕ) : List (List ℕ × IndexEntry) :=
  if tomb then alistMarkDeleted idx key
  else alistInsert idx key ⟨id, off, false⟩

/-- The recovery scan loop (`src/storage.rs` lines 338-369): read records
from the stream until the first failure of any kind, tracking the running
index, the maximum id seen, and the last valid end offset. -/
def scanLoop (bs : List ℕ) (pos : ℕ) (idx : List (List ℕ × IndexEntry)) (maxId : ℤ) :
    List (List ℕ × IndexEntry) × ℤ × ℕ :=
  match h : readRecordStream bs with
  | .ok (rec, rest) =>
    scanLoop rest (pos + (bs.length - rest.length))
      (applyRec idx rec.1 rec.2.1 rec.2.2.2 pos) (max maxId (rec.1 : ℤ))
  | .error _ => (idx, maxId, pos)
termination_by bs.length
decreasing_by
  have := readRecordStream_consume bs _ _ h
  omega

/-!
The storage layer (`src/storage.rs` `Storage`). State: the bytes of
`data.log` after its 32-byte header, the `f32` slots of `vectors.bin`
after its header, and the `vectors.bin` file-handle cursor (in floats past
the header; byte position `32 + 4·vcursor`). The data-log handle needs no
cursor in the model because `append_log` always seeks to the end and
`read_log_record` uses positioned reads. `append_vector`, however, writes
at the current cursor (the Rust code never seeks before writing there)
while deriving the returned id from the file length.
-/

structure Stor where
  log : List ℕ
  vfile : List ℚ
  vcursor : ℕ
  dimension : ℕ
deriving DecidableEq

/-- Write a run of floats at a position of the vector file, zero-filling
any gap (POSIX write-past-EOF semantics; in the program the position is
always at or before EOF). -/
def writeAt (file : List ℚ) (pos : ℕ) (v : List ℚ) : List ℚ :=
  (file ++ List.replicate (pos - file.length) 0).take pos ++ v ++ file.drop (pos + v.length)

/-- `Storage::append_log`: seek to end, append one encoded record
(serializing the JSON value), return the pre-write file offset. -/
def Stor.append_log (s : Stor) (id : ℕ) (key : List ℕ) (value : Json)
    (tombstone : Bool) : ℕ × Stor :=
  (32 + s.log.length,
    { s with log := s.log ++ encodeRecord id key (jsonSerialize value) tombstone })

/-- `Storage::append_vector`: reject a wrong-length vector; derive the id
from the current file length, `id = (len − 32) / (dimension · 4)`; then
write the floats at the current cursor (the code does not seek first) and
advance the cursor. -/
def Stor.append_vector (s : Stor) (vector : List ℚ) : Except DbError (ℕ × Stor) :=
  if vector.length ≠ s.dimension then
    .error (.dimensionMismatch s.dimension vector.length)
  else
    let current_len := 32 + 4 * s.vfile.length
    let id := (current_len - 32) / (s.dimension * 4)
    .ok (id, { s with vfile := writeAt s.vfile s.vcursor vector,
                      vcursor := s.vcursor + vector.length })

/-- `Storage::update_vector`: reject a wrong-length vector; seek to
`32 + id·dimension·4` and overwrite the slot, leaving the cursor after
it. -/
def Stor.update_vector (s : Stor) (id : ℕ) (vector : List ℚ) :
    Except DbError Stor :=
  if vector.length ≠ s.dimension then
    .error (.dimensionMismatch s.dimension vector.length)
  else
    .ok { s with vfile := writeAt s.vfile (id * s.dimension) vector,
                 vcursor := id * s.dimension + vector.length }

/-- `Storage::read_log_record`: positioned read of one record at a file
offset. Reading the 17-byte header at `offset` and then the key/value
bytes is the same as decoding the stream that starts at that offset, so
the model reuses the stream decoder (both fail with unexpected EOF when
the file is too short, and the field checks run in the same order). -/
def Stor.read_log_record (s : Stor) (offset : ℕ) :
    Except DbError (ℕ × List ℕ × Json × Bool) :=
  match readRecordStream (s.log.drop (offset - 32)) with
  | .ok (rec, _) => .ok rec
  | .error e => .error e

/-- `Storage::scan_and_recover` (`src/storage.rs` lines 313-399): align
the vector file down to whole slots, scan the log until the first invalid
record, truncate the log at the last valid boundary, fail if the maximum
id in the log reaches the slot count, else return the recovered index and
the loaded vectors (loading leaves the vector-file cursor at EOF). -/
def Stor.scan_and_recover (s : Stor) :
    Except DbError (Stor × List (List ℕ × IndexEntry) × List ℚ) :=
  let disk_vec_count := (4 * s.vfile.length) / (s.dimension * 4)
  let vfile1 := s.vfile.take (s.vfile.length - s.vfile.length % s.dimension)
  let r := scanLoop s.log 32 [] (-1)
  let log1 := s.log.take (r.2.2 - 32)
  if r.2.1 ≥ (disk_vec_count : ℤ) then .error .corruptLogId
  else
    .ok ({ log := log1, vfile := vfile1, vcursor := vfile1.length,
           dimension := s.dimension }, r.1, vfile1)

/-!
The database layer (`src/db.rs` `Inner` / `Database`). The `RwLock` is
not modelled: every operation is a state transition on the locked state.
The auto-compaction trigger at the end of `put` only spawns a background
thread (no in-lock state change), so `put` models lines 200-266.
-/

structure DbState where
  storage : Stor
  index : List (List ℕ × IndexEntry)
  vectors : List ℚ
  id_to_key : List (List ℕ)
  deleted : List Bool
  free_list : List ℕ
deriving DecidableEq

/-- Overwrite a range of the in-memory vector cache
(`vectors[start..start+dim].copy_from_slice`). -/
def setRange (l : List ℚ) (pos : ℕ) (v : List ℚ) : List ℚ :=
  l.take pos ++ v ++ l.drop (pos + v.length)

/-- Steps 3-6 of `Database::put` after the slot has been allocated and the
vector written: append the log record, recycle the key's old live slot
(guarding against a double push), update the vector cache, grow the
auxiliary arrays if needed, and upsert the index entry. -/
def putCore (st : DbState) (id : ℕ) (key : List ℕ) (vector : List ℚ)
    (value : Json) : DbState :=
  let p := st.storage.append_log id key value false
  let offset := p.1
  let st1 := { st with storage := p.2 }
  let st2 :=
    match alistLookup st1.index key with
    | some old_entry =>
      if old_entry.deleted = false then
        if old_entry.id < st1.deleted.length then
          { st1 with deleted := st1.deleted.set old_entry.id true,
                     free_list := st1.free_list ++ [old_entry.id] }
        else st1
      else st1
    | none => st1
  let dim := st2.storage.dimension
  let st3 :=
    if id * dim < st2.vectors.length then
      { st2 with vectors := setRange st2.vectors (id * dim) vector }
    else
      { st2 with vectors := st2.vectors ++ vector }
  let st4 :=
    if st3.id_to_key.length ≤ id then
      { st3 with
        id_to_key := st3.id_to_key ++ List.replicate (id + 1 - st3.id_to_key.length) [],
        deleted := st3.deleted ++ List.replicate (id + 1 - st3.deleted.length) false }
    else st3
  { st4 with
    id_to_key := st4.id_to_key.set id key,
    deleted := st4.deleted.set id false,
    index := alistInsert st4.index key ⟨id, offset, false⟩ }

/-- `Database::put` (`src/db.rs` lines 200-266): validate the dimension
(every rational component is finite, so the NaN/Inf check never fires in
the model), reuse the last free-list slot via `update_vector` or extend
the file via `append_vector`, then run the common tail. -/
def DbState.put (st : DbState) (key : List ℕ) (vector : List ℚ)
    (value : Json) : Except DbError DbState :=
  if vector.length ≠ st.storage.dimension then
    .error (.dimensionMismatch st.storage.dimension vector.length)
  else
    match st.free_list.getLast? with
    | some free_id =>
      match st.storage.update_vector free_id vector with
      | .error e => .error e
      | .ok stor1 =>
        .ok (putCore { st with storage := stor1, free_list := st.free_list.dropLast }
          free_id key vector value)
    | none =>
      match st.storage.append_vector vector with
      | .error e => .error e
      | .ok (id, stor1) =>
        .ok (putCore { st with storage := stor1 } id key vector value)

/-- `Database::delete` (`src/db.rs` lines 306-333): absent key fails with
`NotFound`; an already-deleted entry returns success without writing;
otherwise append one tombstone, mark the entry deleted, and (when the id
is in range) mark the bitmap and push the id onto the free list. -/
def DbState.delete (st : DbState) (key : List ℕ) : Except DbError DbState :=
  match alistLookup st.index key with
  | none => .error .notFound
  | some entry =>
    if entry.deleted then .ok st
    else
      let p := st.storage.append_log entry.id key .null true
      let st1 := { st with storage := p.2, index := alistMarkDeleted st.index key }
      if entry.id < st1.deleted.length then
        .ok { st1 with deleted := st1.deleted.set entry.id true,
                       free_list := st1.free_list ++ [entry.id] }
      else .ok st1

/-- `Database::get` (`src/db.rs` lines 336-352): absent or deleted key
fails with `NotFound`; otherwise the metadata is read back from the log
at the entry's offset. -/
def DbState.get (st : DbState) (key : List ℕ) : Except DbError Json :=
  match alistLookup st.index key with
  | none => .error .notFound
  | some entry =>
    if entry.deleted then .error .notFound
    else
      match st.storage.read_log_record entry.data_offset with
      | .error e => .error e
      | .ok (_, _, val, _) => .ok val

/-- Model of `DbStats` (`src/db.rs` lines 14-31, 473-498). The deletion
ratio is the exact rational `deleted / max(total, 1)`. -/
structure DbStats where
  total_vectors : ℕ
  deleted_vectors : ℕ
  active_vectors : ℕ
  index_size : ℕ
  data_file_size : ℕ
  vector_file_size : ℕ
  deletion_ratio : ℚ
  free_list_size : ℕ
deriving DecidableEq

/-- `Database::stats`. -/
def DbState.stats (st : DbState) : DbStats :=
  let total := st.deleted.length
  let del := st.deleted.count true
  { total_vectors := total
    deleted_vectors := del
    active_vectors := total - del
    index_size := st.index.length
    data_file_size := 32 + st.storage.log.length
    vector_file_size := 32 + 4 * st.storage.vfile.length
    deletion_ratio := (del : ℚ) / (max total 1 : ℚ)
    free_list_size := st.free_list.length }

/-- Rebuild of the in-memory auxiliary state after the recovery scan
(`src/db.rs` lines 139-168): every slot starts as deleted; live entries
claim their slot (key recorded, `deleted` cleared); tombstoned entries
record their key only while the slot is still considered deleted; the
free list is every slot still marked deleted, in ascending order. -/
def openFromScan (idx : List (List ℕ × IndexEntry)) (vectors : List ℚ)
    (stor : Stor) : DbState :=
  let count := vectors.length / stor.dimension
  let pair := idx.foldl
    (fun (acc : List (List ℕ) × List Bool) kv =>
      if kv.2.id < count then
        if kv.2.deleted = false then
          (acc.1.set kv.2.id kv.1, acc.2.set kv.2.id false)
        else
          if acc.2.getD kv.2.id true then (acc.1.set kv.2.id kv.1, acc.2) else acc
      else acc)
    (List.replicate count [], List.replicate count true)
  { storage := stor
    index := idx
    vectors := vectors
    id_to_key := pair.1
    deleted := pair.2
    free_list := (List.range count).filter (fun i => pair.2.getD i false) }

/-- `Database::open_with_config` after the compact-temp reconciliation:
recover from the two files, then install the rebuilt in-memory state. -/
def openDb (s : Stor) : Except DbError DbState :=
  match s.scan_and_recover with
  | .error e => .error e
  | .ok (stor1, idx, vectors) => .ok (openFromScan idx vectors stor1)

/-- A freshly created database directory: empty files (headers only),
cursor at EOF, empty in-memory state. -/
def emptyDb (dim : ℕ) : DbState :=
  { storage := { log := [], vfile := [], vcursor := 0, dimension := dim }
    index := []
    vectors := []
    id_to_key := []
    deleted := []
    free_list := [] }

/-- A put or delete request, for reasoning about operation sequences. -/
inductive DbOp where
  | putOp (key : List ℕ) (vector : List ℚ) (value : Json) : DbOp
  | delOp (key : List ℕ) : DbOp

/-- Run one operation; a failed operation leaves the state unchanged
(`put` and `delete` validate before mutating). -/
def applyOp (st : DbState) (op : DbOp) : DbState :=
  match op with
  | .putOp k v m =>
    match st.put k v m with
    | .ok s2 => s2
    | .error _ => st
  | .delOp k =>
    match st.delete k with
    | .ok s2 => s2
    | .error _ => st

/-- Run a sequence of operations. -/
def runOps (st : DbState) (ops : List DbOp) : DbState := ops.foldl applyOp st

/-!
Brute-force search (`src/db.rs` lines 500-585). `BinaryHeap<SearchItem>`
(ordered by squared distance only) is modelled as a list kept sorted
ascending by squared distance: `push` is ordered insertion, `peek` reads
the last element (a maximum), popping the maximum drops the last element,
and `into_sorted_vec` is the identity on the sorted list. The code maps
every result through `f32::sqrt` at the end; since square roots leave ℚ,
the model returns the squared distance and theorem statements apply
`Real.sqrt`, which is order-preserving and exact.
-/

structure SearchItem where
  id : ℕ
  dist_sq : ℚ
deriving DecidableEq

/-- Ordered insertion into the sorted heap model (`BinaryHeap::push`). -/
def heapPush : List SearchItem → SearchItem → List SearchItem
  | [], x => [x]
  | y :: t, x => if x.dist_sq ≤ y.dist_sq then x :: y :: t else y :: heapPush t x

/-- Model of `euclidean_distance_squared` (`src/db.rs` lines 566-585):
4-way unrolled chunks plus a zipped remainder; on the equal-length inputs
the program uses, this is exactly the source's chunking. -/
def euclidean_distance_squared (a b : List ℚ) : ℚ :=
  match a, b with
  | a0 :: a1 :: a2 :: a3 :: ar, b0 :: b1 :: b2 :: b3 :: br =>
    ((a0 - b0) * (a0 - b0) + (a1 - b1) * (a1 - b1) + (a2 - b2) * (a2 - b2) +
      (a3 - b3) * (a3 - b3)) + euclidean_distance_squared ar br
  | a, b => (a.zip b).foldl (fun s p => s + (p.1 - p.2) * (p.1 - p.2)) 0

/-- The search scan (`src/db.rs` lines 530-546): walk all slots, skip
deleted ones, and maintain the bounded heap of the `k` smallest squared
distances. -/
def searchHeapLoop (st : DbState) (query : List ℚ) (k : ℕ) : List SearchItem :=
  let dim := st.storage.dimension
  (List.range st.deleted.length).foldl
    (fun heap i =>
      if st.deleted.getD i false then heap
      else
        let vector := (st.vectors.drop (i * dim)).take dim
        let dist_sq := euclidean_distance_squared query vector
        if heap.length < k then heapPush heap ⟨i, dist_sq⟩
        else
          match heap.getLast? with
          | some maxItem =>
            if dist_sq < maxItem.dist_sq then heapPush heap.dropLast ⟨i, dist_sq⟩
            else heap
          | none => heap)
    []

/-- `Database::search`: validate the query dimension (rational components
are always finite), return empty on an empty store, else drain the heap
ascending and map ids to keys. Each returned number is the squared
distance; the source applies `.sqrt()` to it. -/
def DbState.search (st : DbState) (query : List ℚ) (k : ℕ) :
    Except DbError (List (List ℕ × ℚ)) :=
  if query.length ≠ st.storage.dimension then
    .error (.dimensionMismatch st.storage.dimension query.length)
  else if st.deleted.isEmpty then .ok []
  else
    .ok ((searchHeapLoop st query k).map
      (fun item => (st.id_to_key.getD item.id [], item.dist_sq)))

unseal natDigits jsonSerialize serElems serMembers scanLoop

/-!
Claim C1. The id computation of `append_vector` matches the spec, but the
write position does not: `append_vector` writes at the vector-file
handle's current cursor without seeking to the end (unlike `append_log`,
which seeks). After an `update_vector` on any slot other than the last,
the cursor sits inside the file, so the next `append_vector` overwrites
an existing slot while returning an id derived from the unchanged file
length — slot `id` is never written. The spec (write order, recovery
consistency check, invariant 2) clearly intends appends at EOF, so this
is a code bug, witnessed below on a concrete run.
-/

/-- Fresh dimension-1 storage after append [1], append [2],
update_vector 0 [3] — the cursor is now at float position 1 (end of
slot 0) while the file holds 2 slots. -/
def c1Stor : Except DbError (ℕ × Stor) :=
  match Stor.append_vector { log := [], vfile := [], vcursor := 0, dimension := 1 } [1] with
  | .ok (_, s1) =>
    match s1.append_vector [2] with
    | .ok (_, s2) =>
      match s2.update_vector 0 [3] with
      | .ok s3 => s3.append_vector [4]
      | .error e => .error e
    | .error e => .error e
  | .error e => .error e

/-- C1 (code-bug evidence): on the run append [1]; append [2];
update_vector 0 [3]; append_vector [4] with dimension 1, the final
append returns id 2 = (len − 32)/(dimension·4), but the resulting vector
file still holds exactly the two slots [3, 4]: the write landed at the
stale cursor inside slot 1, and the bytes of slot 2 (offset 32 + 2·4)
were never written — contradicting the claim that after `append_vector`
slot `id` holds `v`. -/
theorem C1_append_after_update_misplaces_write :
    c1Stor = .ok (2, { log := [], vfile := [3, 4], vcursor := 2, dimension := 1 }) ∧
    ∀ p s, c1Stor = .ok (p, s) → s.vfile.length < (p + 1) * s.dimension := by
  constructor
  · rfl
  · intro p s h
    rw [show c1Stor = .ok (2, { log := [], vfile := [3, 4], vcursor := 2, dimension := 1 })
      from rfl] at h
    simp at h
    rw [← h.1, ← h.2]
    decide

/-- C1 (the intact half of the claim): on any storage state whose cursor
is at EOF and whose data length is whole slots, `append_vector v` returns
`id = (len − 32)/(dimension·4)` computed from the file length and leaves
the `dimension` floats of `v` in slot `id` (bytes `32 + id·dim·4` on). -/
theorem C1_append_vector_at_eof (s : Stor) (v : List ℚ)
    (hcur : s.vcursor = s.vfile.length) (hdim : 0 < s.dimension)
    (halign : s.dimension ∣ s.vfile.length) (hv : v.length = s.dimension) :
    ∃ s2, s.append_vector v = .ok ((32 + 4 * s.vfile.length - 32) / (s.dimension * 4), s2) ∧
      ((s2.vfile.drop (((32 + 4 * s.vfile.length - 32) / (s.dimension * 4)) * s.dimension)).take
        s.dimension) = v ∧
      s2.vfile.length = s.vfile.length + s.dimension := by
  obtain ⟨q, hq⟩ := halign
  have hw : writeAt s.vfile s.vcursor v = s.vfile ++ v := by
    unfold writeAt
    rw [hcur]
    have hpad : s.vfile.length - s.vfile.length = 0 := by omega
    rw [hpad]
    simp only [List.replicate_zero, List.append_nil]
    rw [List.take_of_length_le (le_refl _), List.drop_of_length_le (by omega)]
    rw [List.append_nil]
  have hid : (32 + 4 * s.vfile.length - 32) / (s.dimension * 4) = q := by
    rw [hq]
    rw [show 32 + 4 * (s.dimension * q) - 32 = 4 * (s.dimension * q) by omega]
    rw [show 4 * (s.dimension * q) = (s.dimension * 4) * q by ring]
    exact Nat.mul_div_cancel_left q (by omega)
  refine ⟨⟨s.log, writeAt s.vfile s.vcursor v, s.vcursor + v.length, s.dimension⟩, ?_, ?_, ?_⟩
  · unfold Stor.append_vector
    rw [if_neg (by omega)]
  · simp only [hw, hid]
    rw [show q * s.dimension = s.vfile.length from by rw [Nat.mul_comm, ← hq]]
    rw [List.drop_left]
    exact List.take_of_length_le (by omega)
  · simp only [hw]
    simp
    omega

/-!
Claim C2. A repeated put on a live key does not replace the vector in
place: `put` allocates the slot for the new vector first (line 218: pop
the free list, else append) and only afterwards frees the old slot
(lines 233-242). On a fresh database the free list is empty, so the
second put appends slot 1 and then pushes slot 0 onto the free list:
`total_vectors = 2` and `free_list_size = 1`, not 1 and 0. Search and
`get` behave as the claim says (one live vector, `{"v":2}`).
-/

/-- The database after `put("k", [1.0], {"v":1})` on a fresh
dimension-1 database. -/
def c2Mid : DbState :=
  applyOp (emptyDb 1) (.putOp [107] [1] (.obj [([118], .num 1)]))

/-- The database after the second `put("k", [2.0], {"v":2})`. -/
def c2End : DbState :=
  applyOp c2Mid (.putOp [107] [2] (.obj [([118], .num 2)]))

/-- C2 (counterexample): both puts succeed, yet afterwards
`total_vectors = 2` and `free_list_size = 1`, refuting the claimed
`total_vectors == 1 ∧ free_list_size == 0`. -/
theorem C2_counterexample_repeated_put :
    ((emptyDb 1).put [107] [1] (.obj [([118], .num 1)])).isOk = true ∧
    (c2Mid.put [107] [2] (.obj [([118], .num 2)])).isOk = true ∧
    c2End.stats.total_vectors = 2 ∧ c2End.stats.free_list_size = 1 ∧
    ¬(c2End.stats.total_vectors = 1 ∧ c2End.stats.free_list_size = 0) := by
  refine ⟨rfl, rfl, rfl, rfl, by decide⟩

set_option maxRecDepth 8192 in
/-- C2 (amended): the repeated put allocates a new slot (slot 1) for the
new vector and then frees the old slot 0: stats report
`total_vectors = 2` and `free_list_size = 1`; exactly one vector is live,
so `search` returns exactly one hit, key "k", for the query [3] — and
`get "k"` yields `{"v":2}`. -/
theorem C2_amended_repeated_put :
    ((emptyDb 1).put [107] [1] (.obj [([118], .num 1)])).isOk = true ∧
    (c2Mid.put [107] [2] (.obj [([118], .num 2)])).isOk = true ∧
    c2End.stats.total_vectors = 2 ∧ c2End.stats.free_list_size = 1 ∧
    (c2End.search [3] 5).toOption.map (fun l => l.map Prod.fst) = some [[107]] ∧
    c2End.get [107] = .ok (.obj [([118], .num 2)]) := by
  refine ⟨rfl, rfl, rfl, rfl, by decide, by decide⟩

/-!
Claim C10. Because of the `append_vector` cursor bug (claim C1), two
different live keys can be assigned the same slot id within one session:
after the slot-0 reuse moves the cursor into the middle of the file, two
further appends both compute id 2 from the unchanged file length. Deleting
both keys then pushes 2 onto the free list twice — the free list gains a
duplicate while `deleted` marks slot 2 once, refuting the claimed
exact-correspondence invariant. The guard in `put` (only recycle a slot
whose entry is live) shows the invariant is intended; the breakage stems
from the same storage bug.
-/

/-- Eight-operation run on a fresh dimension-1 database: put a, put b,
delete a, put c (reuses slot 0 and moves the cursor), put d and put e
(both get id 2 from the buggy append), delete d, delete e. -/
def c10End : DbState :=
  runOps (emptyDb 1)
    [.putOp [97] [1] .null, .putOp [98] [2] .null, .delOp [97],
     .putOp [99] [3] .null, .putOp [100] [4] .null, .putOp [101] [5] .null,
     .delOp [100], .delOp [101]]

/-- C10 (code-bug evidence): after the run above the free list is [2, 2]
— slot 2 appears twice — while `deleted` is [false, false, true]: the
free list is not duplicate-free and does not correspond one-to-one with
the deleted bitmap. -/
theorem C10_free_list_duplicate :
    c10End.free_list = [2, 2] ∧ c10End.deleted = [false, false, true] ∧
    ¬c10End.free_list.Nodup := by
  refine ⟨by decide, by decide, by decide⟩

/-!
Claim C9. Every write to the vector file is a whole number of slots at a
slot-aligned position: `update_vector` writes `dimension` floats at
`id · dimension`, and `append_vector` writes `dimension` floats at the
cursor, which itself always sits at a slot boundary. So the file length
(in floats) stays a multiple of the dimension through every put and
delete — even through the misplaced writes of claim C1.
-/

/-- Alignment invariant of the storage state: the vector data length and
the cursor are whole slots. -/
def StorAligned (dim : ℕ) (s : Stor) : Prop :=
  s.dimension = dim ∧ dim ∣ s.vfile.length ∧ dim ∣ s.vcursor

instance (dim : ℕ) (s : Stor) : Decidable (StorAligned dim s) := by
  unfold StorAligned
  infer_instance

theorem writeAt_length (f : List ℚ) (pos : ℕ) (v : List ℚ) :
    (writeAt f pos v).length = max f.length (pos + v.length) := by
  simp [writeAt]
  omega

theorem putCore_storage (st : DbState) (id : ℕ) (k : List ℕ) (v : List ℚ) (m : Json) :
    (putCore st id k v m).storage = (st.storage.append_log id k m false).2 := by
  unfold putCore
  dsimp only
  cases hlk : alistLookup st.index k with
  | none =>
    dsimp only
    split <;> split <;> rfl
  | some e =>
    dsimp only
    by_cases he : e.deleted = false
    · rw [if_pos he]
      by_cases hr : e.id < st.deleted.length
      · rw [if_pos hr]
        dsimp only
        split <;> split <;> rfl
      · rw [if_neg hr]
        dsimp only
        split <;> split <;> rfl
    · rw [if_neg he]
      dsimp only
      split <;> split <;> rfl

theorem append_log_storage (s : Stor) (id : ℕ) (k : List ℕ) (val : Json) (t : Bool) :
    (Stor.append_log s id k val t).2.vfile = s.vfile ∧
      (Stor.append_log s id k val t).2.vcursor = s.vcursor ∧
      (Stor.append_log s id k val t).2.dimension = s.dimension := by
  simp [Stor.append_log]

/-- Put allocates one aligned write to the vector file: either at a slot
boundary (free-list reuse) or at the cursor (append), in both cases a
whole vector of `dimension` floats. -/
theorem put_storage_shape (st : DbState) (k : List ℕ) (v : List ℚ) (m : Json)
    (s2 : DbState) (h : st.put k v m = .ok s2) :
    v.length = st.storage.dimension ∧
    ∃ pos : ℕ,
      (pos = st.storage.vcursor ∨ ∃ i, pos = i * st.storage.dimension) ∧
      s2.storage.vfile = writeAt st.storage.vfile pos v ∧
      s2.storage.vcursor = pos + v.length ∧
      s2.storage.dimension = st.storage.dimension := by
  unfold DbState.put at h
  split at h
  · exact absurd h (by simp)
  next hvlen =>
    refine ⟨by omega, ?_⟩
    split at h
    next free_id hfl =>
      unfold Stor.update_vector at h
      rw [if_neg (by omega)] at h
      simp only [] at h
      have h2 := Except.ok.inj h
      refine ⟨free_id * st.storage.dimension, Or.inr ⟨free_id, rfl⟩, ?_, ?_, ?_⟩ <;>
        rw [← h2, putCore_storage] <;>
        simp [Stor.append_log]
    next hfl =>
      unfold Stor.append_vector at h
      rw [if_neg (by omega)] at h
      simp only [] at h
      have h2 := Except.ok.inj h
      refine ⟨st.storage.vcursor, Or.inl rfl, ?_, ?_, ?_⟩ <;>
        rw [← h2, putCore_storage] <;>
        simp [Stor.append_log]

/-- Delete never touches the vector file. -/
theorem delete_storage_shape (st : DbState) (k : List ℕ) (s2 : DbState)
    (h : st.delete k = .ok s2) :
    s2.storage.vfile = st.storage.vfile ∧ s2.storage.vcursor = st.storage.vcursor ∧
      s2.storage.dimension = st.storage.dimension := by
  unfold DbState.delete at h
  split at h
  · exact absurd h (by simp)
  next entry hlk =>
    split at h
    · have h2 := Except.ok.inj h
      rw [← h2]
      exact ⟨rfl, rfl, rfl⟩
    · dsimp only at h
      split at h <;>
      · have h2 := Except.ok.inj h
        rw [← h2]
        simp [Stor.append_log]

theorem applyOp_aligned (dim : ℕ) (st : DbState) (op : DbOp)
    (h : StorAligned dim st.storage) : StorAligned dim (applyOp st op).storage := by
  obtain ⟨hdim, hlen, hcur⟩ := h
  cases op with
  | putOp k v m =>
    show StorAligned dim (match st.put k v m with | .ok s2 => s2 | .error _ => st).storage
    cases hput : st.put k v m with
    | error e => exact ⟨hdim, hlen, hcur⟩
    | ok s2 =>
      obtain ⟨hvlen, pos, hpos, hvf, hvc, hd⟩ := put_storage_shape st k v m s2 hput
      have hposdvd : dim ∣ pos := by
        rcases hpos with hp | ⟨i, hp⟩
        · rw [hp]; exact hcur
        · rw [hp, hdim]; exact dvd_mul_left dim i
      refine ⟨by rw [hd, hdim], ?_, ?_⟩
      · rw [hvf, writeAt_length]
        rcases hlen with ⟨a, ha⟩
        rcases hposdvd with ⟨b, hb⟩
        rcases Nat.le_total st.storage.vfile.length (pos + v.length) with hle | hle
        · rw [max_eq_right hle, hb, hvlen, hdim]
          exact ⟨b + 1, by ring⟩
        · rw [max_eq_left hle, ha]
          exact ⟨a, rfl⟩
      · rw [hvc, hvlen, hdim]
        rcases hposdvd with ⟨b, hb⟩
        exact ⟨b + 1, by rw [hb]; ring⟩
  | delOp k =>
    show StorAligned dim (match st.delete k with | .ok s2 => s2 | .error _ => st).storage
    cases hdel : st.delete k with
    | error e => exact ⟨hdim, hlen, hcur⟩
    | ok s2 =>
      obtain ⟨hvf, hvc, hd⟩ := delete_storage_shape st k s2 hdel
      exact ⟨by rw [hd, hdim], by rw [hvf]; exact hlen, by rw [hvc]; exact hcur⟩

theorem runOps_aligned (dim : ℕ) (ops : List DbOp) (st : DbState)
    (h : StorAligned dim st.storage) : StorAligned dim (runOps st ops).storage := by
  induction ops generalizing st with
  | nil => exact h
  | cons op t ih =>
    rw [show runOps st (op :: t) = runOps (applyOp st op) t from rfl]
    exact ih _ (applyOp_aligned dim st op h)

/-- Claim C9: after every sequence of puts and deletes starting from an
aligned state (a fresh database, or any opened state — recovery truncates
the vector file to whole slots and leaves the cursor at EOF), the vector
file length `len = 32 + 4·(number of floats)` satisfies
`(len − 32) mod (dimension·4) = 0`. Failed operations leave the state
unchanged, so arbitrary sequences are covered. -/
theorem C9_vector_file_aligned (dim : ℕ) (st : DbState) (ops : List DbOp)
    (hdim : st.storage.dimension = dim)
    (hlen : dim ∣ st.storage.vfile.length) (hcur : dim ∣ st.storage.vcursor) :
    (32 + 4 * (runOps st ops).storage.vfile.length - 32) % (dim * 4) = 0 := by
  obtain ⟨-, ⟨a, ha⟩, -⟩ := runOps_aligned dim ops st ⟨hdim, hlen, hcur⟩
  rw [ha]
  rw [show 32 + 4 * (dim * a) - 32 = 4 * (dim * a) by omega]
  rw [show 4 * (dim * a) = dim * 4 * a by ring]
  exact Nat.mul_mod_right _ _

/-- Witness for C9: a concrete aligned start (a fresh dimension-2
database) and a concrete operation sequence. -/
theorem C9_vector_file_aligned_witness :
    (emptyDb 2).storage.dimension = 2 ∧ (2 : ℕ) ∣ (emptyDb 2).storage.vfile.length ∧
    (2 : ℕ) ∣ (emptyDb 2).storage.vcursor ∧
    (32 + 4 * (runOps (emptyDb 2)
      [.putOp [97] [1, 2] .null, .putOp [98] [3, 4] .null, .delOp [97],
       .putOp [99] [5, 6] .null]).storage.vfile.length - 32) % (2 * 4) = 0 :=
  ⟨rfl, ⟨0, rfl⟩, ⟨0, rfl⟩,
    C9_vector_file_aligned 2 (emptyDb 2) _ rfl ⟨0, rfl⟩ ⟨0, rfl⟩⟩

/-!
Claim C7. Deleting a live key appends exactly one tombstone, marks the
entry and the bitmap, and pushes the id onto the free list once; an
immediately repeated delete sees the entry already deleted and returns
success without touching anything; deleting an absent key is `NotFound`.
-/

theorem alistLookup_markDeleted_self (idx : List (List ℕ × IndexEntry)) (k : List ℕ)
    (e : IndexEntry) (h : alistLookup idx k = some e) :
    alistLookup (alistMarkDeleted idx k) k = some { e with deleted := true } := by
  induction idx with
  | nil => simp [alistLookup] at h
  | cons kv t ih =>
    obtain ⟨k0, v0⟩ := kv
    by_cases hk : k0 = k
    · rw [alistLookup, if_pos hk] at h
      rw [alistMarkDeleted, if_pos hk, alistLookup, if_pos hk]
      rw [Option.some.inj h]
    · rw [alistLookup, if_neg hk] at h
      rw [alistMarkDeleted, if_neg hk, alistLookup, if_neg hk]
      exact ih h

/-- Claim C7: if `k` is live (its index entry exists, is not deleted, and
its slot id is within the bitmap), then the first `delete k` succeeds
producing `s1`; the second `delete k` on `s1` succeeds and returns `s1`
unchanged, so exactly one tombstone was appended to the log and the slot
id was pushed onto the free list exactly once across the two calls; and
deleting a key absent from the index fails with `NotFound`. -/
theorem C7_delete_idempotent (st : DbState) (k : List ℕ) :
    (∀ entry, alistLookup st.index k = some entry → entry.deleted = false →
      entry.id < st.deleted.length →
      ∃ s1, st.delete k = .ok s1 ∧ s1.delete k = .ok s1 ∧
        s1.storage.log =
          st.storage.log ++ encodeRecord entry.id k (jsonSerialize .null) true ∧
        s1.free_list = st.free_list ++ [entry.id] ∧
        s1.deleted = st.deleted.set entry.id true) ∧
    (alistLookup st.index k = none → st.delete k = .error .notFound) := by
  constructor
  · intro entry hlk hlive hrange
    have hdel1 : st.delete k = .ok
        { st with
          storage := (st.storage.append_log entry.id k .null true).2,
          index := alistMarkDeleted st.index k,
          deleted := st.deleted.set entry.id true,
          free_list := st.free_list ++ [entry.id] } := by
      unfold DbState.delete
      rw [hlk]
      simp only []
      rw [if_neg (by rw [hlive]; simp)]
      rw [if_pos hrange]
    refine ⟨_, hdel1, ?_, ?_, ?_, ?_⟩
    · unfold DbState.delete
      rw [show alistLookup (alistMarkDeleted st.index k) k =
        some { entry with deleted := true } from alistLookup_markDeleted_self _ _ _ hlk]
      simp
    · simp [Stor.append_log]
    · rfl
    · rfl
  · intro hlk
    unfold DbState.delete
    rw [hlk]

/-- Witness for C7: the database holding one live key "k" (from claim
C2's first put); its first delete succeeds, the second is a no-op
success, and deleting the absent key "x" is `NotFound`. -/
theorem C7_delete_idempotent_witness :
    (∃ s1, c2Mid.delete [107] = .ok s1 ∧ s1.delete [107] = .ok s1 ∧
      s1.storage.log =
        c2Mid.storage.log ++ encodeRecord 0 [107] (jsonSerialize .null) true ∧
      s1.free_list = c2Mid.free_list ++ [0] ∧
      s1.deleted = c2Mid.deleted.set 0 true) ∧
    c2Mid.delete [120] = .error .notFound := by
  constructor
  · exact (C7_delete_idempotent c2Mid [107]).1 ⟨0, 32, false⟩ (by decide) rfl (by decide)
  · exact (C7_delete_idempotent c2Mid [120]).2 (by decide)

/-!
Claim C3. After a successful `put k v m`, and any further puts/deletes on
other keys, `get k` still returns `m`: the index entry for `k` keeps
pointing at the byte offset of the put's log record, later operations
only append to the log, and the positioned read decodes exactly that
record, whose value bytes round-trip through the JSON model.
-/

/-- Variant of the decode lemma without a bound on the id: the decoder
recovers `id % 2 ^ 32` (the `u32` the encoder wrote). -/
theorem readRecordStream_encode_mod (id : ℕ) (key val : List ℕ) (t : Bool) (m : Json)
    (rest : List ℕ) (hk : key.length < 2 ^ 32)
    (hv : val.length < 2 ^ 32) (hu : validUtf8 key = true)
    (hj : jsonParse val = some m) :
    readRecordStream (encodeRecord id key val t ++ rest) =
      .ok ((id % 2 ^ 32, key, m, t), rest) := by
  have h := readRecordStream_encode (id % 2 ^ 32) key val t m rest
    (Nat.mod_lt _ (by norm_num)) hk hv hu hj
  rw [show encodeRecord (id % 2 ^ 32) key val t = encodeRecord id key val t from by
    unfold encodeRecord
    simp] at h
  exact h

theorem alistLookup_insert_self (idx : List (List ℕ × IndexEntry)) (k : List ℕ)
    (e : IndexEntry) : alistLookup (alistInsert idx k e) k = some e := by
  induction idx with
  | nil => simp [alistInsert, alistLookup]
  | cons kv t ih =>
    obtain ⟨k0, v0⟩ := kv
    by_cases hk : k0 = k
    · rw [alistInsert, if_pos hk, alistLookup, if_pos rfl]
    · rw [alistInsert, if_neg hk, alistLookup, if_neg hk]
      exact ih

theorem alistLookup_insert_ne (idx : List (List ℕ × IndexEntry)) (k1 k : List ℕ)
    (e : IndexEntry) (h : k1 ≠ k) :
    alistLookup (alistInsert idx k1 e) k = alistLookup idx k := by
  induction idx with
  | nil => simp [alistInsert, alistLookup, h]
  | cons kv t ih =>
    obtain ⟨k0, v0⟩ := kv
    by_cases hk : k0 = k1
    · rw [alistInsert, if_pos hk, alistLookup, if_neg h, alistLookup, if_neg (by rw [hk]; exact h)]
    · rw [alistInsert, if_neg hk, alistLookup, alistLookup]
      split
      · rfl
      · exact ih

theorem alistLookup_markDeleted_ne (idx : List (List ℕ × IndexEntry)) (k1 k : List ℕ)
    (h : k1 ≠ k) : alistLookup (alistMarkDeleted idx k1) k = alistLookup idx k := by
  induction idx with
  | nil => simp [alistMarkDeleted, alistLookup]
  | cons kv t ih =>
    obtain ⟨k0, v0⟩ := kv
    by_cases hk : k0 = k1
    · have hk0 : k0 ≠ k := by rw [hk]; exact h
      rw [alistMarkDeleted, if_pos hk, alistLookup, if_neg hk0, alistLookup, if_neg hk0]
    · rw [alistMarkDeleted, if_neg hk, alistLookup, alistLookup]
      split
      · rfl
      · exact ih

theorem putCore_index_log (st : DbState) (id : ℕ) (k : List ℕ) (v : List ℚ) (m : Json) :
    (putCore st id k v m).index =
      alistInsert st.index k ⟨id, 32 + st.storage.log.length, false⟩ ∧
    (putCore st id k v m).storage.log =
      st.storage.log ++ encodeRecord id k (jsonSerialize m) false := by
  unfold putCore
  dsimp only
  cases hlk : alistLookup st.index k with
  | none =>
    dsimp only
    constructor
    · split <;> split <;> simp [Stor.append_log]
    · split <;> split <;> simp [Stor.append_log]
  | some e =>
    dsimp only
    by_cases he : e.deleted = false
    · rw [if_pos he]
      by_cases hr : e.id < st.deleted.length
      · rw [if_pos hr]
        dsimp only
        constructor
        · split <;> split <;> simp [Stor.append_log]
        · split <;> split <;> simp [Stor.append_log]
      · rw [if_neg hr]
        dsimp only
        constructor
        · split <;> split <;> simp [Stor.append_log]
        · split <;> split <;> simp [Stor.append_log]
    · rw [if_neg he]
      dsimp only
      constructor
      · split <;> split <;> simp [Stor.append_log]
      · split <;> split <;> simp [Stor.append_log]

/-- The index/log effect of a successful put: the key maps to a fresh
live entry whose offset is the pre-put end of the log, and the log grows
by exactly that record. -/
theorem put_shape (st : DbState) (k : List ℕ) (v : List ℚ) (m : Json) (s2 : DbState)
    (h : st.put k v m = .ok s2) :
    ∃ id, s2.index = alistInsert st.index k ⟨id, 32 + st.storage.log.length, false⟩ ∧
      s2.storage.log = st.storage.log ++ encodeRecord id k (jsonSerialize m) false := by
  unfold DbState.put at h
  split at h
  · exact absurd h (by simp)
  next hvlen =>
    split at h
    next free_id hfl =>
      unfold Stor.update_vector at h
      rw [if_neg (by omega)] at h
      simp only [] at h
      have h2 := Except.ok.inj h
      refine ⟨free_id, ?_, ?_⟩ <;> rw [← h2]
      · exact (putCore_index_log _ _ _ _ _).1
      · exact (putCore_index_log _ _ _ _ _).2
    next hfl =>
      unfold Stor.append_vector at h
      rw [if_neg (by omega)] at h
      simp only [] at h
      have h2 := Except.ok.inj h
      refine ⟨(32 + 4 * st.storage.vfile.length - 32) / (st.storage.dimension * 4),
        ?_, ?_⟩ <;> rw [← h2]
      · exact (putCore_index_log _ _ _ _ _).1
      · exact (putCore_index_log _ _ _ _ _).2

/-- The index/log effect of a successful delete: either a no-op (entry
already deleted) or a mark-deleted on the index plus one appended
record. -/
theorem delete_shape (st : DbState) (k : List ℕ) (s2 : DbState)
    (h : st.delete k = .ok s2) :
    s2 = st ∨
    (s2.index = alistMarkDeleted st.index k ∧
      ∃ rec, s2.storage.log = st.storage.log ++ rec) := by
  unfold DbState.delete at h
  split at h
  · exact absurd h (by simp)
  next entry hlk =>
    split at h
    · exact Or.inl (Except.ok.inj h).symm
    · dsimp only at h
      right
      split at h <;>
      · have h2 := Except.ok.inj h
        rw [← h2]
        exact ⟨rfl, encodeRecord entry.id k (jsonSerialize .null) true,
          by simp [Stor.append_log]⟩

/-- The invariant carried from the put to the get: `k`'s entry is live
and points at a log offset where the put's encoded record sits. -/
def GetsM (k : List ℕ) (m : Json) (s : DbState) : Prop :=
  validUtf8 k = true ∧ k.length < 2 ^ 32 ∧ (jsonSerialize m).length < 2 ^ 32 ∧
  ∃ e id pre post, alistLookup s.index k = some e ∧ e.deleted = false ∧
    e.data_offset = 32 + pre.length ∧
    s.storage.log = pre ++ (encodeRecord id k (jsonSerialize m) false ++ post)

theorem GetsM_get (k : List ℕ) (m : Json) (s : DbState) (h : GetsM k m s) :
    s.get k = .ok m := by
  obtain ⟨hu, hk, hm, e, id, pre, post, hlk, hlive, hoff, hlog⟩ := h
  unfold DbState.get
  rw [hlk]
  simp only []
  rw [if_neg (by rw [hlive]; simp)]
  unfold Stor.read_log_record
  rw [hlog, hoff]
  rw [show 32 + pre.length - 32 = pre.length from by omega]
  rw [List.drop_left]
  rw [readRecordStream_encode_mod id k (jsonSerialize m) false m post hk hm hu
    (jsonParse_serialize m)]

/-- A successful put establishes the invariant for its own key. -/
theorem put_establishes_GetsM (st : DbState) (k : List ℕ) (v : List ℚ) (m : Json)
    (s1 : DbState) (hu : validUtf8 k = true) (hk : k.length < 2 ^ 32)
    (hm : (jsonSerialize m).length < 2 ^ 32) (hput : st.put k v m = .ok s1) :
    GetsM k m s1 := by
  obtain ⟨id, hidx, hlog⟩ := put_shape st k v m s1 hput
  refine ⟨hu, hk, hm, ⟨id, 32 + st.storage.log.length, false⟩, id, st.storage.log, [],
    ?_, rfl, by simp, ?_⟩
  · rw [hidx]
    exact alistLookup_insert_self ..
  · rw [hlog]
    simp

/-- Puts and deletes on other keys preserve the invariant. -/
theorem applyOp_preserves_GetsM (k : List ℕ) (m : Json) (st : DbState) (op : DbOp)
    (hop : (match op with | .putOp k1 _ _ => k1 | .delOp k1 => k1) ≠ k)
    (h : GetsM k m st) : GetsM k m (applyOp st op) := by
  obtain ⟨hu, hk, hm, e, id, pre, post, hlk, hlive, hoff, hlog⟩ := h
  cases op with
  | putOp k1 v1 m1 =>
    show GetsM k m (match st.put k1 v1 m1 with | .ok s2 => s2 | .error _ => st)
    cases hput : st.put k1 v1 m1 with
    | error e1 => exact ⟨hu, hk, hm, e, id, pre, post, hlk, hlive, hoff, hlog⟩
    | ok s2 =>
      obtain ⟨id1, hidx, hlog1⟩ := put_shape st k1 v1 m1 s2 hput
      refine ⟨hu, hk, hm, e, id, pre,
        post ++ encodeRecord id1 k1 (jsonSerialize m1) false, ?_, hlive, hoff, ?_⟩
      · rw [hidx, alistLookup_insert_ne _ _ _ _ hop]
        exact hlk
      · rw [hlog1, hlog]
        simp
  | delOp k1 =>
    show GetsM k m (match st.delete k1 with | .ok s2 => s2 | .error _ => st)
    cases hdel : st.delete k1 with
    | error e1 => exact ⟨hu, hk, hm, e, id, pre, post, hlk, hlive, hoff, hlog⟩
    | ok s2 =>
      rcases delete_shape st k1 s2 hdel with heq | ⟨hidx, rec, hlog1⟩
      · rw [heq]
        exact ⟨hu, hk, hm, e, id, pre, post, hlk, hlive, hoff, hlog⟩
      · refine ⟨hu, hk, hm, e, id, pre, post ++ rec, ?_, hlive, hoff, ?_⟩
        · rw [hidx, alistLookup_markDeleted_ne _ _ _ hop]
          exact hlk
        · rw [hlog1, hlog]
          simp

/-- Claim C3: after a successful `put k v m` on any state, followed by
any sequence of puts and deletes on keys other than `k`, `get k` returns
exactly `m` (the metadata survives serialization into the log and the
positioned read back). The key is valid UTF-8 and key/serialized-value
fit in a `u32` length field, as for every key and value a Rust caller
can pass. -/
theorem C3_put_then_get (st : DbState) (k : List ℕ) (v : List ℚ) (m : Json)
    (s1 : DbState) (ops : List DbOp)
    (hu : validUtf8 k = true) (hk : k.length < 2 ^ 32)
    (hm : (jsonSerialize m).length < 2 ^ 32)
    (hput : st.put k v m = .ok s1)
    (hops : ∀ op ∈ ops, (match op with | .putOp k1 _ _ => k1 | .delOp k1 => k1) ≠ k) :
    (runOps s1 ops).get k = .ok m := by
  apply GetsM_get
  have hbase := put_establishes_GetsM st k v m s1 hu hk hm hput
  clear hput
  induction ops generalizing s1 with
  | nil => exact hbase
  | cons op t ih =>
    rw [show runOps s1 (op :: t) = runOps (applyOp s1 op) t from rfl]
    exact ih _ (fun o ho => hops o (by simp [ho]))
      (applyOp_preserves_GetsM k m s1 op (hops op (by simp)) hbase)

/-- Witness for C3: on a fresh dimension-1 database, put "k" then put and
delete other keys; `get "k"` still returns `{"v":1}`. -/
theorem C3_put_then_get_witness :
    ∃ s1, (emptyDb 1).put [107] [1] (.obj [([118], .num 1)]) = .ok s1 ∧
      (runOps s1 [.putOp [97] [5] .null, .delOp [97], .putOp [98] [7] (.bool true)]).get
        [107] = .ok (.obj [([118], .num 1)]) := by
  refine ⟨_, rfl, ?_⟩
  exact C3_put_then_get (emptyDb 1) [107] [1] (.obj [([118], .num 1)]) _
    [.putOp [97] [5] .null, .delOp [97], .putOp [98] [7] (.bool true)]
    (by decide) (by decide) (by decide) rfl (by decide)

/-!
Claims C5 and C6: the recovery scan. A structured view of well-formed log
records lets the scan loop be computed record by record: it consumes each
valid record, stops at the first failure of any kind (short read, CRC,
UTF-8, JSON), and reports the last valid boundary, at which the log is
truncated.
-/

/-- A log record as a structured value: id, key bytes, value bytes,
tombstone flag. -/
structure RawRec where
  id : ℕ
  key : List ℕ
  val : List ℕ
  tomb : Bool
deriving DecidableEq

/-- Bytes of one structured record. -/
def encodeR (r : RawRec) : List ℕ := encodeRecord r.id r.key r.val r.tomb

/-- Bytes of a record sequence. -/
def encodeAll (rs : List RawRec) : List ℕ := rs.flatMap encodeR

/-- Well-formedness of a record as written by `append_log`: `u32`-sized
id and lengths, valid UTF-8 key, parseable JSON value. -/
def WfRec (r : RawRec) : Prop :=
  r.id < 2 ^ 32 ∧ r.key.length < 2 ^ 32 ∧ r.val.length < 2 ^ 32 ∧
    validUtf8 r.key = true ∧ (jsonParse r.val).isSome = true

instance (r : RawRec) : Decidable (WfRec r) := by
  unfold WfRec
  infer_instance

/-- The provisional index built from a structured record sequence,
mirroring one pass of the scan loop. -/
def scanFold : List RawRec → ℕ → List (List ℕ × IndexEntry) →
    List (List ℕ × IndexEntry)
  | [], _, idx => idx
  | r :: rs, pos, idx =>
    scanFold rs (pos + (17 + r.key.length + r.val.length))
      (applyRec idx r.id r.key r.tomb pos)

/-- The running maximum id of a structured record sequence. -/
def maxIdF : List RawRec → ℤ → ℤ
  | [], m => m
  | r :: rs, m => maxIdF rs (max m (r.id : ℤ))

theorem scanLoop_error (bs : List ℕ) (pos : ℕ) (idx : List (List ℕ × IndexEntry))
    (maxId : ℤ) (e : DbError) (h : readRecordStream bs = .error e) :
    scanLoop bs pos idx maxId = (idx, maxId, pos) := by
  rw [scanLoop]
  split
  next rec rest hok => rw [h] at hok; cases hok
  next => rfl

theorem scanLoop_cons (r : RawRec) (m : Json) (tail : List ℕ) (pos : ℕ)
    (idx : List (List ℕ × IndexEntry)) (maxId : ℤ)
    (hid : r.id < 2 ^ 32) (hk : r.key.length < 2 ^ 32) (hv : r.val.length < 2 ^ 32)
    (hu : validUtf8 r.key = true) (hj : jsonParse r.val = some m) :
    scanLoop (encodeR r ++ tail) pos idx maxId =
      scanLoop tail (pos + (17 + r.key.length + r.val.length))
        (applyRec idx r.id r.key r.tomb pos) (max maxId (r.id : ℤ)) := by
  rw [scanLoop]
  split
  next rec rest hok =>
    unfold encodeR at hok
    rw [readRecordStream_encode r.id r.key r.val r.tomb m tail hid hk hv hu hj] at hok
    have h1 := Except.ok.inj hok
    rw [Prod.mk.injEq] at h1
    obtain ⟨hrec, hrest⟩ := h1
    subst hrec hrest
    have hlen : (encodeR r ++ tail).length - tail.length =
        17 + r.key.length + r.val.length := by
      rw [List.length_append]
      unfold encodeR
      rw [encodeRecord_length]
      omega
    rw [hlen]
  next e herr =>
    unfold encodeR at herr
    rw [readRecordStream_encode r.id r.key r.val r.tomb m tail hid hk hv hu hj] at herr
    cases herr

/-- The scan of well-formed records followed by an unparseable tail:
every record is consumed, the tail stops the loop, and the reported
boundary is the end of the last valid record. -/
theorem scanLoop_encodeAll (rs : List RawRec) (tail : List ℕ) (pos : ℕ)
    (idx : List (List ℕ × IndexEntry)) (maxId : ℤ)
    (hwf : ∀ r ∈ rs, WfRec r) (htail : ∃ e, readRecordStream tail = .error e) :
    scanLoop (encodeAll rs ++ tail) pos idx maxId =
      (scanFold rs pos idx, maxIdF rs maxId, pos + (encodeAll rs).length) := by
  induction rs generalizing pos idx maxId with
  | nil =>
    obtain ⟨e, he⟩ := htail
    rw [show encodeAll [] = [] from rfl, List.nil_append, scanLoop_error _ _ _ _ _ he]
    simp [scanFold, maxIdF, encodeAll]
  | cons r rs ih =>
    obtain ⟨w1, w2, w3, w4, w5⟩ := hwf r (by simp)
    obtain ⟨m, hm⟩ := Option.isSome_iff_exists.mp w5
    rw [show encodeAll (r :: rs) = encodeR r ++ encodeAll rs from by simp [encodeAll],
      List.append_assoc]
    rw [scanLoop_cons r m _ pos idx maxId w1 w2 w3 w4 hm]
    rw [ih _ _ _ (fun x hx => hwf x (by simp [hx]))]
    rw [show scanFold (r :: rs) pos idx =
      scanFold rs (pos + (17 + r.key.length + r.val.length))
        (applyRec idx r.id r.key r.tomb pos) from rfl]
    rw [show maxIdF (r :: rs) maxId = maxIdF rs (max maxId (r.id : ℤ)) from rfl]
    simp only [Prod.mk.injEq]
    refine ⟨trivial, trivial, ?_⟩
    simp [encodeAll, encodeR, encodeRecord_length]
    omega

/-- Claim C6: `scan_and_recover` surfaces a corruption error exactly when
the maximum id among the valid log records exceeds `disk_vec_count − 1`,
the number of complete slots of the vector file (alignment truncation
floors the count, which the division already does). -/
theorem C6_corruption_iff_max_id (s : Stor) :
    s.scan_and_recover = .error .corruptLogId ↔
      (scanLoop s.log 32 [] (-1)).2.1 >
        ((4 * s.vfile.length) / (s.dimension * 4) : ℕ) - 1 := by
  unfold Stor.scan_and_recover
  dsimp only
  by_cases hc : (scanLoop s.log 32 [] (-1)).2.1 ≥
      ((4 * s.vfile.length / (s.dimension * 4) : ℕ) : ℤ)
  · rw [if_pos hc]
    constructor
    · intro _
      omega
    · intro _
      rfl
  · rw [if_neg hc]
    constructor
    · intro h
      cases h
    · intro h
      omega

/-- C6 also in the negative direction: when the check passes, recovery
returns the recovered state rather than repairing anything silently. -/
theorem C6_success_of_max_id_small (s : Stor)
    (h : ¬(scanLoop s.log 32 [] (-1)).2.1 ≥
      ((4 * s.vfile.length) / (s.dimension * 4) : ℕ)) :
    s.scan_and_recover = .ok
      ({ log := s.log.take ((scanLoop s.log 32 [] (-1)).2.2 - 32),
         vfile := s.vfile.take (s.vfile.length - s.vfile.length % s.dimension),
         vcursor := (s.vfile.take (s.vfile.length - s.vfile.length % s.dimension)).length,
         dimension := s.dimension },
       (scanLoop s.log 32 [] (-1)).1,
       s.vfile.take (s.vfile.length - s.vfile.length % s.dimension)) := by
  unfold Stor.scan_and_recover
  dsimp only
  rw [if_neg h]

theorem scanFold_lookup_notin (rs : List RawRec) (pos : ℕ)
    (idx : List (List ℕ × IndexEntry)) (k : List ℕ) (h : k ∉ rs.map RawRec.key) :
    alistLookup (scanFold rs pos idx) k = alistLookup idx k := by
  induction rs generalizing pos idx with
  | nil => rfl
  | cons r rs ih =>
    have hne : r.key ≠ k := by
      intro he
      exact h (by simp [← he])
    rw [show scanFold (r :: rs) pos idx =
      scanFold rs (pos + (17 + r.key.length + r.val.length))
        (applyRec idx r.id r.key r.tomb pos) from rfl]
    rw [ih _ _ (fun hc => h (by simp at hc ⊢; exact Or.inr hc))]
    unfold applyRec
    split
    · exact alistLookup_markDeleted_ne _ _ _ hne
    · exact alistLookup_insert_ne _ _ _ _ hne

/-- Claim C5: the recovery scan stops at the first invalid record and
truncates there. For any well-formed records `rs` followed by the last
record `r` with its final `j` bytes missing (`0 < j`), and a vector file
large enough for the ids of `rs` (as the vector-first write order
guarantees): reopening succeeds and yields exactly the state obtained
from the log without the torn record — the log is truncated back to
`encodeAll rs`, the index is the fold of `rs` (all previous records
visible), and if `r`'s key was fresh, `get` on it fails with `NotFound`. -/
theorem C5_recovery_truncates (dim : ℕ) (vf : List ℚ) (cur1 cur2 : ℕ)
    (rs : List RawRec) (r : RawRec) (j : ℕ)
    (hwf : ∀ x ∈ rs, WfRec x) (hwr : WfRec r)
    (hj1 : 0 < j) (hj2 : j ≤ (encodeR r).length)
    (hmax : maxIdF rs (-1) < ((4 * vf.length) / (dim * 4) : ℕ)) :
    openDb ⟨encodeAll rs ++ (encodeR r).take ((encodeR r).length - j), vf, cur1, dim⟩ =
      openDb ⟨encodeAll rs, vf, cur2, dim⟩ ∧
    ∃ st, openDb ⟨encodeAll rs ++ (encodeR r).take ((encodeR r).length - j), vf, cur1,
      dim⟩ = .ok st ∧
      st.storage.log = encodeAll rs ∧
      st.index = scanFold rs 32 [] ∧
      (r.key ∉ rs.map RawRec.key → st.get r.key = .error .notFound) := by
  obtain ⟨w1, w2, w3, w4, -⟩ := hwr
  have htorn : readRecordStream ((encodeR r).take ((encodeR r).length - j)) =
      .error .ioEof := by
    unfold encodeR
    apply readRecordStream_trunc r.id r.key r.val r.tomb w1 w2 w3 w4
    rw [← encodeR]
    omega
  have hclean : readRecordStream ([] : List ℕ) = .error .ioEof := rfl
  have hscan1 := scanLoop_encodeAll rs ((encodeR r).take ((encodeR r).length - j)) 32 []
    (-1) hwf ⟨_, htorn⟩
  have hscan2 := scanLoop_encodeAll rs [] 32 [] (-1) hwf ⟨_, hclean⟩
  rw [List.append_nil] at hscan2
  have hopen1 : openDb ⟨encodeAll rs ++ (encodeR r).take ((encodeR r).length - j), vf,
      cur1, dim⟩ = .ok (openFromScan
        (scanFold rs 32 []) (vf.take (vf.length - vf.length % dim))
        ⟨encodeAll rs, vf.take (vf.length - vf.length % dim),
          (vf.take (vf.length - vf.length % dim)).length, dim⟩) := by
    unfold openDb Stor.scan_and_recover
    dsimp only
    rw [hscan1]
    dsimp only
    rw [if_neg (by omega)]
    rw [show 32 + (encodeAll rs).length - 32 = (encodeAll rs).length from by omega]
    rw [List.take_left]
  have hopen2 : openDb ⟨encodeAll rs, vf, cur2, dim⟩ = .ok (openFromScan
        (scanFold rs 32 []) (vf.take (vf.length - vf.length % dim))
        ⟨encodeAll rs, vf.take (vf.length - vf.length % dim),
          (vf.take (vf.length - vf.length % dim)).length, dim⟩) := by
    unfold openDb Stor.scan_and_recover
    dsimp only
    rw [hscan2]
    dsimp only
    rw [if_neg (by omega)]
    rw [show 32 + (encodeAll rs).length - 32 = (encodeAll rs).length from by omega]
    rw [List.take_of_length_le (le_refl _)]
  refine ⟨by rw [hopen1, hopen2], _, hopen1, rfl, rfl, ?_⟩
  intro hnotin
  unfold DbState.get
  dsimp only [openFromScan]
  rw [scanFold_lookup_notin rs 32 [] r.key hnotin]
  rfl

/-- The key of the i-th record in the C5 witness: "k" followed by the
decimal digits of i. -/
def keyB (i : ℕ) : List ℕ := 107 :: natDigits i

/-- The first 99 records of the C5 witness run. -/
def c5rs : List RawRec :=
  (List.range 99).map (fun i => ⟨i, keyB i, jsonSerialize (.num i), false⟩)

/-- The torn 100th record of the C5 witness run. -/
def c5r : RawRec := ⟨99, keyB 99, jsonSerialize (.num 99), false⟩

set_option maxRecDepth 100000 in
/-- Witness for C5, the claim's own scenario: 100 put records (ids 0-99,
distinct keys) with the last 7 bytes of the last record missing, and a
100-slot dimension-1 vector file. Reopening succeeds, the log is
truncated to the 99 whole records, the first key is visible in the
index, and `get` on the 100th key fails with `NotFound`. -/
theorem C5_recovery_truncates_witness :
    ∃ st, openDb ⟨encodeAll c5rs ++ (encodeR c5r).take ((encodeR c5r).length - 7),
      List.replicate 100 0, 0, 1⟩ = .ok st ∧
      st.storage.log = encodeAll c5rs ∧
      (alistLookup st.index (keyB 0)).isSome = true ∧
      st.get (keyB 99) = .error .notFound := by
  obtain ⟨-, st, hopen, hlog, hidx, hnf⟩ :=
    C5_recovery_truncates 1 (List.replicate 100 0) 0 0 c5rs c5r 7
      (by decide) (by decide) (by decide) (by decide) (by decide)
  refine ⟨st, hopen, hlog, ?_, hnf (by decide)⟩
  rw [hidx]
  decide


/-!
Claim C4. Search correctness: the scan over all slots keeps a heap
(modelled as a list sorted ascending by squared distance) whose every
item is a live slot carrying the squared distance from the query to that
slot's stored vector, and whose size is `min k` (number of live slots
seen). The claim's properties follow: result length `min k
active_vectors`, non-decreasing distances, each distance the Euclidean
distance to the returned key's stored vector, and no deleted slot is
ever returned. (The claim does not assert minimality of the kept set, so
no heap-extremality argument is needed.)
-/

/-- One slot visit of the search scan, with the database fields abstracted
out, so that the fold can be reasoned about by list induction. -/
def searchStep (del : List Bool) (vec : List ℚ) (dim k : ℕ) (query : List ℚ)
    (heap : List SearchItem) (i : ℕ) : List SearchItem :=
  if del.getD i false then heap
  else
    let vector := (vec.drop (i * dim)).take dim
    let dist_sq := euclidean_distance_squared query vector
    if heap.length < k then heapPush heap ⟨i, dist_sq⟩
    else
      match heap.getLast? with
      | some maxItem =>
        if dist_sq < maxItem.dist_sq then heapPush heap.dropLast ⟨i, dist_sq⟩
        else heap
      | none => heap

theorem searchHeapLoop_eq_foldl (st : DbState) (query : List ℚ) (k : ℕ) :
    searchHeapLoop st query k =
      (List.range st.deleted.length).foldl
        (searchStep st.deleted st.vectors st.storage.dimension k query) [] := by
  rfl

theorem heapPush_length (h : List SearchItem) (x : SearchItem) :
    (heapPush h x).length = h.length + 1 := by
  induction h with
  | nil => rfl
  | cons y t ih =>
    by_cases hc : x.dist_sq ≤ y.dist_sq <;> simp [heapPush, hc, ih]

theorem mem_heapPush {h : List SearchItem} {x y : SearchItem}
    (hm : y ∈ heapPush h x) : y = x ∨ y ∈ h := by
  induction h with
  | nil => simpa [heapPush] using hm
  | cons z t ih =>
    by_cases hc : x.dist_sq ≤ z.dist_sq
    · simp only [heapPush, if_pos hc, List.mem_cons] at hm
      rcases hm with h1 | h1 | h1
      · exact Or.inl h1
      · exact Or.inr (by simp [h1])
      · exact Or.inr (by simp [h1])
    · simp only [heapPush, if_neg hc, List.mem_cons] at hm
      rcases hm with h1 | h1
      · exact Or.inr (by simp [h1])
      · rcases ih h1 with h2 | h2
        · exact Or.inl h2
        · exact Or.inr (by simp [h2])

theorem heapPush_pairwise {h : List SearchItem} {x : SearchItem}
    (hs : h.Pairwise (fun a b => a.dist_sq ≤ b.dist_sq)) :
    (heapPush h x).Pairwise (fun a b => a.dist_sq ≤ b.dist_sq) := by
  induction h with
  | nil => simp [heapPush]
  | cons y t ih =>
    rcases List.pairwise_cons.mp hs with ⟨hy, ht⟩
    by_cases hc : x.dist_sq ≤ y.dist_sq
    · rw [heapPush, if_pos hc]
      refine List.pairwise_cons.mpr ⟨?_, hs⟩
      intro z hz
      rcases List.mem_cons.mp hz with rfl | hz
      · exact hc
      · exact le_trans hc (hy z hz)
    · rw [heapPush, if_neg hc]
      refine List.pairwise_cons.mpr ⟨?_, ih ht⟩
      intro z hz
      rcases mem_heapPush hz with rfl | hz
      · exact le_of_not_le hc
      · exact hy z hz

/-- What the scan guarantees of every item it keeps: the slot is live, in
range, and carries the squared distance from the query to that slot's
stored vector. -/
def GoodItem (del : List Bool) (vec : List ℚ) (dim : ℕ) (query : List ℚ)
    (x : SearchItem) : Prop :=
  x.id < del.length ∧ del.getD x.id false = false ∧
    x.dist_sq = euclidean_distance_squared query ((vec.drop (x.id * dim)).take dim)

theorem searchFold_inv (del : List Bool) (vec : List ℚ) (dim k : ℕ)
    (query : List ℚ) :
    ∀ (l : List ℕ) (heap : List SearchItem) (m : ℕ),
      (∀ i ∈ l, i < del.length) →
      heap.length = min k m →
      heap.Pairwise (fun a b => a.dist_sq ≤ b.dist_sq) →
      (∀ x ∈ heap, GoodItem del vec dim query x) →
      (l.foldl (searchStep del vec dim k query) heap).length =
          min k (m + (l.filter (fun i => !(del.getD i false))).length) ∧
        (l.foldl (searchStep del vec dim k query) heap).Pairwise
          (fun a b => a.dist_sq ≤ b.dist_sq) ∧
        ∀ x ∈ l.foldl (searchStep del vec dim k query) heap,
          GoodItem del vec dim query x := by
  intro l
  induction l with
  | nil =>
    intro heap m _ hlen hsort hgood
    exact ⟨by simpa using hlen, hsort, hgood⟩
  | cons i t ih =>
    intro heap m hin hlen hsort hgood
    have hi : i < del.length := hin i (by simp)
    have hint : ∀ j ∈ t, j < del.length := fun j hj => hin j (by simp [hj])
    by_cases hdel : del.getD i false
    · have hstep : searchStep del vec dim k query heap i = heap := by
        simp only [searchStep]
        rw [if_pos hdel]
      simp only [List.foldl_cons, hstep, List.filter_cons, hdel]
      simpa using ih heap m hint hlen hsort hgood
    · have hdelf : del.getD i false = false := by
        revert hdel
        cases del.getD i false <;> simp
      have hfilter :
          ((i :: t).filter (fun j => !(del.getD j false))).length =
            (t.filter (fun j => !(del.getD j false))).length + 1 := by
        rw [List.filter_cons, if_pos (by simpa using hdelf)]
        rfl
      set d := euclidean_distance_squared query ((vec.drop (i * dim)).take dim) with hd
      have hgoodi : GoodItem del vec dim query ⟨i, d⟩ :=
        ⟨hi, by simpa using hdel, rfl⟩
      by_cases hlt : heap.length < k
      · have hmk : m < k := by
          rcases Nat.le_total k m with h1 | h1
          · rw [Nat.min_eq_left h1] at hlen; omega
          · rw [Nat.min_eq_right h1] at hlen; omega
        have hlm : heap.length = m := by rw [hlen, Nat.min_eq_right (le_of_lt hmk)]
        have hstep : searchStep del vec dim k query heap i =
            heapPush heap ⟨i, d⟩ := by
          simp only [searchStep]
          rw [if_neg hdel, if_pos hlt, hd]
        have hgood' : ∀ x ∈ heapPush heap ⟨i, d⟩, GoodItem del vec dim query x := by
          intro x hx
          rcases mem_heapPush hx with rfl | hx
          · exact hgoodi
          · exact hgood x hx
        have := ih (heapPush heap ⟨i, d⟩) (m + 1) hint
          (by rw [heapPush_length, hlm, Nat.min_eq_right (by omega)])
          (heapPush_pairwise hsort) hgood'
        refine ⟨?_, ?_, ?_⟩
        · rw [List.foldl_cons, hstep, this.1, hfilter]
          congr 1
          omega
        · rw [List.foldl_cons, hstep]; exact this.2.1
        · rw [List.foldl_cons, hstep]; exact this.2.2
      · have hlk : heap.length = k := by
          have h1 : heap.length ≤ k := by rw [hlen]; exact Nat.min_le_left k m
          omega
        have hkm : k ≤ m := by
          rcases Nat.le_total k m with h1 | h1
          · exact h1
          · rw [Nat.min_eq_right h1] at hlen; omega
        have hfin : ∀ heap' : List SearchItem,
            heap'.length = k →
            heap'.Pairwise (fun a b => a.dist_sq ≤ b.dist_sq) →
            (∀ x ∈ heap', GoodItem del vec dim query x) →
            searchStep del vec dim k query heap i = heap' →
            (((i :: t).foldl (searchStep del vec dim k query) heap).length =
                min k (m + ((i :: t).filter (fun j => !(del.getD j false))).length) ∧
              ((i :: t).foldl (searchStep del vec dim k query) heap).Pairwise
                (fun a b => a.dist_sq ≤ b.dist_sq) ∧
              ∀ x ∈ (i :: t).foldl (searchStep del vec dim k query) heap,
                GoodItem del vec dim query x) := by
          intro heap' hlen' hsort' hgood' hstep
          have := ih heap' (m + 1) hint
            (by rw [hlen', Nat.min_eq_left (by omega)])
            hsort' hgood'
          refine ⟨?_, ?_, ?_⟩
          · rw [List.foldl_cons, hstep, this.1, hfilter]
            congr 1
            omega
          · rw [List.foldl_cons, hstep]; exact this.2.1
          · rw [List.foldl_cons, hstep]; exact this.2.2
        rcases Nat.eq_zero_or_pos k with hk0 | hkpos
        · have hnil : heap = [] := List.length_eq_zero.mp (by omega)
          refine hfin heap hlk hsort hgood ?_
          simp only [searchStep]
          rw [if_neg hdel, if_neg hlt]
          rw [hnil]
          rfl
        · have hne : heap ≠ [] := by
            intro hcon
            rw [hcon] at hlk
            simp at hlk
            omega
          obtain ⟨last, hlast⟩ :=
            Option.isSome_iff_exists.mp (List.getLast?_isSome.mpr hne)
          by_cases hcmp : d < last.dist_sq
          · refine hfin (heapPush heap.dropLast ⟨i, d⟩) ?_ ?_ ?_ ?_
            · rw [heapPush_length, List.length_dropLast, hlk]
              omega
            · exact heapPush_pairwise (hsort.sublist (List.dropLast_sublist heap))
            · intro x hx
              rcases mem_heapPush hx with rfl | hx
              · exact hgoodi
              · exact hgood x ((List.dropLast_sublist heap).subset hx)
            · simp only [searchStep]
              rw [if_neg hdel, if_neg hlt, hlast]
              simp only []
              rw [← hd, if_pos hcmp]
          · refine hfin heap hlk hsort hgood ?_
            simp only [searchStep]
            rw [if_neg hdel, if_neg hlt, hlast]
            simp only []
            rw [← hd, if_neg hcmp]

theorem count_false_eq (l : List Bool) :
    l.count false = l.length - l.count true := by
  induction l with
  | nil => rfl
  | cons b t ih =>
    have hle : t.count true ≤ t.length := List.count_le_length true t
    cases b <;> simp [List.count_cons, ih] <;> omega

theorem range_filter_live (del : List Bool) :
    ((List.range del.length).filter (fun i => !(del.getD i false))).length =
      del.count false := by
  induction del with
  | nil => rfl
  | cons b t ih =>
    have hmap : ((List.range t.length).map Nat.succ).filter
        (fun i => !((b :: t).getD i false)) =
        ((List.range t.length).filter (fun i => !(t.getD i false))).map Nat.succ := by
      rw [List.filter_map]
      rfl
    rw [List.length_cons, List.range_succ_eq_map, List.filter_cons, hmap]
    cases b
    · simp only [List.getD_eq_getElem?_getD] at ih
      simp [ih, List.count_cons]
    · simp only [List.getD_eq_getElem?_getD] at ih
      simp [ih, List.count_cons]

theorem foldl_add_dist (l : List (ℚ × ℚ)) :
    ∀ init : ℚ, l.foldl (fun s p => s + (p.1 - p.2) * (p.1 - p.2)) init =
      init + (l.map (fun p => (p.1 - p.2) ^ 2)).sum := by
  induction l with
  | nil => intro init; simp
  | cons p t ih =>
    intro init
    rw [List.foldl_cons, ih, List.map_cons, List.sum_cons]
    ring

theorem edsq_eq_sum (a b : List ℚ) :
    euclidean_distance_squared a b =
      ((a.zip b).map (fun p => (p.1 - p.2) ^ 2)).sum := by
  induction a, b using euclidean_distance_squared.induct with
  | case1 a0 a1 a2 a3 ar b0 b1 b2 b3 br ih =>
    rw [euclidean_distance_squared, ih]
    simp [List.zip_cons_cons]
    ring
  | case2 a b hnot =>
    rw [euclidean_distance_squared]
    · exact foldl_add_dist (a.zip b) 0 |>.trans (by simp)
    · exact hnot

/-- C4: on a query of the right dimension, `search` succeeds and returns
`min k active_vectors` results; the reported distances (the source takes
`sqrt` of each squared distance) are non-decreasing; and every result is
a live (non-deleted) slot whose key is that slot's key and whose distance
is the Euclidean distance `sqrt (Σ (qᵢ − vᵢ)²)` from the query to that
slot's stored vector. -/
theorem C4_search_correct (st : DbState) (query : List ℚ) (k : ℕ)
    (hq : query.length = st.storage.dimension)
    (hkey : st.id_to_key.length = st.deleted.length) :
    ∃ res, st.search query k = .ok res ∧
      res.length = min k st.stats.active_vectors ∧
      res.Pairwise (fun x y => Real.sqrt (x.2 : ℝ) ≤ Real.sqrt (y.2 : ℝ)) ∧
      ∀ p ∈ res, ∃ i, i < st.deleted.length ∧ st.deleted.getD i false = false ∧
        p.1 = st.id_to_key.getD i [] ∧
        Real.sqrt (p.2 : ℝ) =
          Real.sqrt ((((query.zip
            ((st.vectors.drop (i * st.storage.dimension)).take
              st.storage.dimension)).map (fun q => (q.1 - q.2) ^ 2)).sum : ℚ)) := by
  have hactive : st.stats.active_vectors = st.deleted.length - st.deleted.count true := rfl
  by_cases hemp : st.deleted.isEmpty
  · refine ⟨[], ?_, ?_, by simp, by simp⟩
    · rw [DbState.search, if_neg (not_not.mpr hq), if_pos hemp]
    · have : st.deleted = [] := List.isEmpty_iff.mp hemp
      rw [hactive, this]
      simp
  · refine ⟨(searchHeapLoop st query k).map
      (fun item => (st.id_to_key.getD item.id [], item.dist_sq)), ?_, ?_, ?_, ?_⟩
    · rw [DbState.search, if_neg (not_not.mpr hq), if_neg hemp]
    · rw [List.length_map, searchHeapLoop_eq_foldl]
      have := (searchFold_inv st.deleted st.vectors st.storage.dimension k query
        (List.range st.deleted.length) [] 0
        (fun i hi => List.mem_range.mp hi) (by simp) (by simp) (by simp)).1
      rw [this, range_filter_live, hactive, count_false_eq]
      simp
    · rw [searchHeapLoop_eq_foldl]
      have := (searchFold_inv st.deleted st.vectors st.storage.dimension k query
        (List.range st.deleted.length) [] 0
        (fun i hi => List.mem_range.mp hi) (by simp) (by simp) (by simp)).2.1
      refine List.pairwise_map.mpr (this.imp ?_)
      intro a b hab
      exact Real.sqrt_le_sqrt (by exact_mod_cast hab)
    · intro p hp
      rw [searchHeapLoop_eq_foldl] at hp
      obtain ⟨item, hitem, hpe⟩ := List.mem_map.mp hp
      have := (searchFold_inv st.deleted st.vectors st.storage.dimension k query
        (List.range st.deleted.length) [] 0
        (fun i hi => List.mem_range.mp hi) (by simp) (by simp) (by simp)).2.2
        item hitem
      obtain ⟨hlt, hlive, hdist⟩ := this
      refine ⟨item.id, hlt, hlive, ?_, ?_⟩
      · rw [← hpe]
      · rw [← hpe]
        rw [hdist, edsq_eq_sum]

/-- A concrete two-slot state (dimension 1, slot 0 live with key "a",
slot 1 deleted) at which C4 is instantiated. -/
def c4St : DbState :=
  ⟨⟨[], [5, 6], 2, 1⟩, [([97], ⟨0, 0, false⟩)], [5, 6], [[97], [98]],
    [false, true], []⟩

/-- C4 witness: the hypotheses hold at `c4St` with query `[3]`, `k = 5`,
and the theorem applies. -/
theorem C4_search_correct_witness :
    (([(3 : ℚ)].length = c4St.storage.dimension) ∧
      c4St.id_to_key.length = c4St.deleted.length) ∧
    (∃ res, c4St.search [3] 5 = .ok res ∧
      res.length = min 5 c4St.stats.active_vectors ∧
      res.Pairwise (fun x y => Real.sqrt (x.2 : ℝ) ≤ Real.sqrt (y.2 : ℝ)) ∧
      ∀ p ∈ res, ∃ i, i < c4St.deleted.length ∧
        c4St.deleted.getD i false = false ∧
        p.1 = c4St.id_to_key.getD i [] ∧
        Real.sqrt (p.2 : ℝ) =
          Real.sqrt ((((([(3 : ℚ)].zip
            ((c4St.vectors.drop (i * c4St.storage.dimension)).take
              c4St.storage.dimension)).map (fun q => (q.1 - q.2) ^ 2)).sum : ℚ))) ) :=
  ⟨⟨rfl, rfl⟩, C4_search_correct c4St [3] 5 rfl rfl⟩

/-!
Claim C8. `Database::compact` (`src/db.rs` lines 363-470): collect the
index entries, sort them by slot id (`sort_by_key`, stable — modelled by
a stable insertion sort), and for each live entry read its value from
the old log, slice its vector from the in-memory cache, and append both
to a fresh storage; finally install the rebuilt state — the reopened
storage has both cursors at EOF (`Storage::new` seeks both files to
`End`) and the free list is empty.
-/

/-- Stable insertion step of `sort_by_key` on the entry id. -/
def insertById (x : List ℕ × IndexEntry) :
    List (List ℕ × IndexEntry) → List (List ℕ × IndexEntry)
  | [] => [x]
  | y :: t => if x.2.id ≤ y.2.id then x :: y :: t else y :: insertById x t

/-- `entries.sort_by_key(|(_, entry)| entry.id)` (a stable sort). -/
def sortById : List (List ℕ × IndexEntry) → List (List ℕ × IndexEntry)
  | [] => []
  | x :: t => insertById x (sortById t)

/-- The accumulator of the compaction loop: the fresh storage plus the
four rebuilt in-memory structures (the new free list stays empty). -/
structure CompactAcc where
  stor : Stor
  index : List (List ℕ × IndexEntry)
  vectors : List ℚ
  id_to_key : List (List ℕ)
  deleted : List Bool
deriving DecidableEq

/-- The body of compaction's `for (key, entry) in &entries` loop: skip
tombstoned entries; otherwise read the entry's record from the old
storage, slice its vector from the in-memory cache, append both to the
fresh storage and extend the rebuilt structures. Any read or append
error aborts the whole compaction, as `?` does in the source. -/
def compactLoop (st : DbState) :
    List (List ℕ × IndexEntry) → CompactAcc → Except DbError CompactAcc
  | [], acc => .ok acc
  | kv :: es, acc =>
    if kv.2.deleted then compactLoop st es acc
    else
      match st.storage.read_log_record kv.2.data_offset with
      | .error e => .error e
      | .ok r =>
        let value := r.2.2.1
        let vector := (st.vectors.drop
          (kv.2.id * st.storage.dimension)).take st.storage.dimension
        match acc.stor.append_vector vector with
        | .error e => .error e
        | .ok (new_id, ns) =>
          let p := ns.append_log new_id kv.1 value false
          compactLoop st es
            ⟨p.2, alistInsert acc.index kv.1 ⟨new_id, p.1, false⟩,
              acc.vectors ++ vector, acc.id_to_key ++ [kv.1],
              acc.deleted ++ [false]⟩

/-- `Database::compact`: run the loop over the id-sorted entries starting
from a fresh storage (empty files, same dimension), then install the
rebuilt state over the reopened files (cursors at EOF, free list empty). -/
def DbState.compact (st : DbState) : Except DbError DbState :=
  match compactLoop st (sortById st.index)
      ⟨⟨[], [], 0, st.storage.dimension⟩, [], [], [], []⟩ with
  | .error e => .error e
  | .ok acc =>
    .ok { storage := ⟨acc.stor.log, acc.stor.vfile, acc.stor.vfile.length,
            st.storage.dimension⟩
          index := acc.index
          vectors := acc.vectors
          id_to_key := acc.id_to_key
          deleted := acc.deleted
          free_list := [] }

/-- The data log a compaction writes for live entries
`(key, value, vector)` taken in order, ids starting at `i`. -/
def freshLog (i : ℕ) : List (List ℕ × Json × List ℚ) → List ℕ
  | [] => []
  | t :: ts => encodeRecord i t.1 (jsonSerialize t.2.1) false ++ freshLog (i + 1) ts

/-- The vector file a compaction writes: the live vectors in order. -/
def freshVecs : List (List ℕ × Json × List ℚ) → List ℚ
  | [] => []
  | t :: ts => t.2.2 ++ freshVecs ts

/-- The index a compaction rebuilds: consecutive ids from `i`, each
entry's offset the start of its record, nothing deleted. -/
def freshIndex (i pos : ℕ) :
    List (List ℕ × Json × List ℚ) → List (List ℕ × IndexEntry)
  | [] => []
  | t :: ts => (t.1, ⟨i, pos, false⟩) ::
      freshIndex (i + 1)
        (pos + (encodeRecord i t.1 (jsonSerialize t.2.1) false).length) ts

/-- The loop accumulator after the live entries `ts` have been
processed. -/
def freshAcc (dim : ℕ) (ts : List (List ℕ × Json × List ℚ)) : CompactAcc :=
  ⟨⟨freshLog 0 ts, freshVecs ts, (freshVecs ts).length, dim⟩,
    freshIndex 0 32 ts, freshVecs ts, ts.map (fun t => t.1),
    List.replicate ts.length false⟩

/-- The database state a successful compaction installs. -/
def freshDb (dim : ℕ) (ts : List (List ℕ × Json × List ℚ)) : DbState :=
  ⟨⟨freshLog 0 ts, freshVecs ts, (freshVecs ts).length, dim⟩,
    freshIndex 0 32 ts, freshVecs ts, ts.map (fun t => t.1),
    List.replicate ts.length false, []⟩

theorem freshLog_append (a b : List (List ℕ × Json × List ℚ)) :
    ∀ i, freshLog i (a ++ b) = freshLog i a ++ freshLog (i + a.length) b := by
  induction a with
  | nil => intro i; simp [freshLog]
  | cons t ts ih =>
    intro i
    rw [List.cons_append, freshLog, freshLog, ih (i + 1), List.append_assoc,
      List.length_cons]
    have h1 : i + 1 + ts.length = i + (ts.length + 1) := by omega
    rw [h1]

theorem freshVecs_append (a b : List (List ℕ × Json × List ℚ)) :
    freshVecs (a ++ b) = freshVecs a ++ freshVecs b := by
  induction a with
  | nil => simp [freshVecs]
  | cons t ts ih => rw [List.cons_append, freshVecs, freshVecs, ih, List.append_assoc]

theorem freshVecs_length (dim : ℕ) (ts : List (List ℕ × Json × List ℚ))
    (h : ∀ t ∈ ts, t.2.2.length = dim) :
    (freshVecs ts).length = ts.length * dim := by
  induction ts with
  | nil => simp [freshVecs]
  | cons t ts ih =>
    rw [freshVecs, List.length_append, ih (fun u hu => h u (by simp [hu])),
      h t (by simp), List.length_cons]
    ring

theorem freshLog_length (a : List (List ℕ × Json × List ℚ)) :
    ∀ i, (freshLog i a).length =
      (a.map (fun t => 17 + t.1.length + (jsonSerialize t.2.1).length)).sum := by
  induction a with
  | nil => intro i; simp [freshLog]
  | cons t ts ih =>
    intro i
    rw [freshLog, List.length_append, encodeRecord_length, ih (i + 1),
      List.map_cons, List.sum_cons]

theorem freshIndex_append (a b : List (List ℕ × Json × List ℚ)) :
    ∀ i pos, freshIndex i pos (a ++ b) =
      freshIndex i pos a ++
        freshIndex (i + a.length) (pos + (freshLog i a).length) b := by
  induction a with
  | nil => intro i pos; simp [freshIndex, freshLog]
  | cons t ts ih =>
    intro i pos
    rw [List.cons_append, freshIndex, freshIndex, ih (i + 1), List.cons_append]
    rw [List.length_cons, freshLog, List.length_append]
    congr 3
    · omega
    · omega

theorem freshIndex_length (a : List (List ℕ × Json × List ℚ)) :
    ∀ i pos, (freshIndex i pos a).length = a.length := by
  induction a with
  | nil => intro i pos; rfl
  | cons t ts ih => intro i pos; rw [freshIndex, List.length_cons, ih, List.length_cons]

theorem freshIndex_keys (a : List (List ℕ × Json × List ℚ)) :
    ∀ i pos, (freshIndex i pos a).map Prod.fst = a.map (fun t => t.1) := by
  induction a with
  | nil => intro i pos; rfl
  | cons t ts ih => intro i pos; rw [freshIndex, List.map_cons, ih, List.map_cons]

theorem freshIndex_id_lb (a : List (List ℕ × Json × List ℚ)) :
    ∀ i pos kv, kv ∈ freshIndex i pos a → i ≤ kv.2.id := by
  induction a with
  | nil => intro i pos kv h; simp [freshIndex] at h
  | cons t ts ih =>
    intro i pos kv h
    rw [freshIndex] at h
    rcases List.mem_cons.mp h with rfl | h
    · exact le_refl i
    · exact le_trans (by omega) (ih (i + 1) _ kv h)

theorem freshIndex_pairwise (a : List (List ℕ × Json × List ℚ)) :
    ∀ i pos, (freshIndex i pos a).Pairwise (fun x y => x.2.id ≤ y.2.id) := by
  induction a with
  | nil => intro i pos; simp [freshIndex]
  | cons t ts ih =>
    intro i pos
    rw [freshIndex]
    refine List.pairwise_cons.mpr ⟨?_, ih (i + 1) _⟩
    intro kv hkv
    have h1 := freshIndex_id_lb ts (i + 1) _ kv hkv
    show i ≤ kv.2.id
    omega

theorem insertById_of_le (x : List ℕ × IndexEntry)
    (l : List (List ℕ × IndexEntry)) (h : ∀ y ∈ l, x.2.id ≤ y.2.id) :
    insertById x l = x :: l := by
  cases l with
  | nil => rfl
  | cons y t => rw [insertById, if_pos (h y (by simp))]

theorem sortById_of_pairwise (l : List (List ℕ × IndexEntry))
    (h : l.Pairwise (fun x y => x.2.id ≤ y.2.id)) : sortById l = l := by
  induction l with
  | nil => rfl
  | cons x t ih =>
    rcases List.pairwise_cons.mp h with ⟨hx, ht⟩
    rw [sortById, ih ht, insertById_of_le x t hx]

theorem insertById_perm (x : List ℕ × IndexEntry)
    (l : List (List ℕ × IndexEntry)) : (insertById x l).Perm (x :: l) := by
  induction l with
  | nil => rfl
  | cons y t ih =>
    by_cases hc : x.2.id ≤ y.2.id
    · rw [insertById, if_pos hc]
    · rw [insertById, if_neg hc]
      exact (List.Perm.cons y ih).trans (List.Perm.swap x y t)

theorem sortById_perm (l : List (List ℕ × IndexEntry)) :
    (sortById l).Perm l := by
  induction l with
  | nil => rfl
  | cons x t ih => exact (insertById_perm x (sortById t)).trans (ih.cons x)

theorem alistLookup_eq_none (idx : List (List ℕ × IndexEntry)) (k : List ℕ)
    (h : k ∉ idx.map Prod.fst) : alistLookup idx k = none := by
  induction idx with
  | nil => rfl
  | cons kv t ih =>
    obtain ⟨k0, v0⟩ := kv
    rw [List.map_cons, List.mem_cons] at h
    push_neg at h
    rw [alistLookup, if_neg (fun hc => h.1 hc.symm)]
    exact ih h.2

theorem alistInsert_append (idx : List (List ℕ × IndexEntry)) (k : List ℕ)
    (e : IndexEntry) (h : k ∉ idx.map Prod.fst) :
    alistInsert idx k e = idx ++ [(k, e)] := by
  induction idx with
  | nil => rfl
  | cons kv t ih =>
    obtain ⟨k0, v0⟩ := kv
    rw [List.map_cons, List.mem_cons] at h
    push_neg at h
    rw [alistInsert, if_neg (fun hc => h.1 hc.symm), List.cons_append]
    rw [ih h.2]

theorem writeAt_eof (f v : List ℚ) : writeAt f f.length v = f ++ v := by
  unfold writeAt
  simp

/-- `append_vector` on a fresh storage whose cursor is at EOF: the id is
the slot count and the floats land at the end. -/
theorem append_vector_eof_fresh (s : Stor) (v : List ℚ)
    (hc : s.vcursor = s.vfile.length) (hl : v.length = s.dimension)
    (hd : 0 < s.dimension) :
    s.append_vector v = .ok (s.vfile.length / s.dimension,
      ⟨s.log, s.vfile ++ v, s.vfile.length + v.length, s.dimension⟩) := by
  rw [Stor.append_vector, if_neg (by omega)]
  have hid : (32 + 4 * s.vfile.length - 32) / (s.dimension * 4) =
      s.vfile.length / s.dimension := by
    rw [Nat.add_sub_cancel_left, mul_comm s.dimension 4]
    exact Nat.mul_div_mul_left s.vfile.length s.dimension (by norm_num)
  rw [hc, writeAt_eof]
  simp only [hid]


theorem compactLoop_nil (st : DbState) (acc : CompactAcc) :
    compactLoop st [] acc = .ok acc := rfl

theorem compactLoop_cons_del (st : DbState) (kv : List ℕ × IndexEntry)
    (es : List (List ℕ × IndexEntry)) (acc : CompactAcc)
    (h : kv.2.deleted = true) :
    compactLoop st (kv :: es) acc = compactLoop st es acc := by
  show (if kv.2.deleted then _ else _) = _
  rw [if_pos h]

theorem compactLoop_cons_read_err (st : DbState) (kv : List ℕ × IndexEntry)
    (es : List (List ℕ × IndexEntry)) (acc : CompactAcc) (e : DbError)
    (h : kv.2.deleted = false)
    (hr : st.storage.read_log_record kv.2.data_offset = .error e) :
    compactLoop st (kv :: es) acc = .error e := by
  show (if kv.2.deleted then _ else _) = _
  rw [if_neg (by simp [h]), hr]

theorem compactLoop_cons_app_err (st : DbState) (kv : List ℕ × IndexEntry)
    (es : List (List ℕ × IndexEntry)) (acc : CompactAcc)
    (r : ℕ × List ℕ × Json × Bool) (e : DbError)
    (h : kv.2.deleted = false)
    (hr : st.storage.read_log_record kv.2.data_offset = .ok r)
    (ha : acc.stor.append_vector ((st.vectors.drop
      (kv.2.id * st.storage.dimension)).take st.storage.dimension) =
        .error e) :
    compactLoop st (kv :: es) acc = .error e := by
  show (if kv.2.deleted then _ else _) = _
  rw [if_neg (by simp [h]), hr]
  simp only []
  rw [ha]

/-- One live step of the loop from the canonical accumulator: the entry's
value and vector are appended, moving the accumulator from `ts1` to
`ts1 ++ [(key, value, vector)]`. -/
theorem compactLoop_fresh_step (st : DbState) (kv : List ℕ × IndexEntry)
    (es : List (List ℕ × IndexEntry)) (ts1 : List (List ℕ × Json × List ℚ))
    (r : ℕ × List ℕ × Json × Bool)
    (hd : 0 < st.storage.dimension)
    (hts1 : ∀ t ∈ ts1, t.2.2.length = st.storage.dimension)
    (hdelf : kv.2.deleted = false)
    (hread : st.storage.read_log_record kv.2.data_offset = .ok r)
    (hvl : ((st.vectors.drop (kv.2.id * st.storage.dimension)).take
      st.storage.dimension).length = st.storage.dimension)
    (hnotin : kv.1 ∉ ts1.map (fun t => t.1)) :
    compactLoop st (kv :: es) (freshAcc st.storage.dimension ts1) =
      compactLoop st es (freshAcc st.storage.dimension (ts1 ++
        [(kv.1, r.2.2.1, (st.vectors.drop
          (kv.2.id * st.storage.dimension)).take st.storage.dimension)])) := by
  have happ := append_vector_eof_fresh (freshAcc st.storage.dimension ts1).stor
    ((st.vectors.drop (kv.2.id * st.storage.dimension)).take
      st.storage.dimension) rfl hvl hd
  have hslots : (freshAcc st.storage.dimension ts1).stor.vfile.length /
      (freshAcc st.storage.dimension ts1).stor.dimension = ts1.length := by
    show (freshVecs ts1).length / st.storage.dimension = ts1.length
    rw [freshVecs_length st.storage.dimension ts1 hts1]
    exact Nat.mul_div_cancel ts1.length hd
  rw [hslots] at happ
  show (if kv.2.deleted then _ else _) = _
  rw [if_neg (by simp [hdelf]), hread]
  simp only []
  rw [happ]
  simp only []
  congr 1
  have hlog : freshLog 0 (ts1 ++ [(kv.1, r.2.2.1, (st.vectors.drop
      (kv.2.id * st.storage.dimension)).take st.storage.dimension)]) =
      freshLog 0 ts1 ++ encodeRecord ts1.length kv.1
        (jsonSerialize r.2.2.1) false := by
    rw [freshLog_append]
    simp [freshLog]
  have hvecs : freshVecs (ts1 ++ [(kv.1, r.2.2.1, (st.vectors.drop
      (kv.2.id * st.storage.dimension)).take st.storage.dimension)]) =
      freshVecs ts1 ++ (st.vectors.drop
        (kv.2.id * st.storage.dimension)).take st.storage.dimension := by
    rw [freshVecs_append]
    simp [freshVecs]
  have hidx : freshIndex 0 32 (ts1 ++ [(kv.1, r.2.2.1, (st.vectors.drop
      (kv.2.id * st.storage.dimension)).take st.storage.dimension)]) =
      freshIndex 0 32 ts1 ++
        [(kv.1, ⟨ts1.length, 32 + (freshLog 0 ts1).length, false⟩)] := by
    rw [freshIndex_append]
    simp [freshIndex]
  have hins : alistInsert (freshIndex 0 32 ts1) kv.1
      ⟨ts1.length, 32 + (freshLog 0 ts1).length, false⟩ =
      freshIndex 0 32 ts1 ++
        [(kv.1, ⟨ts1.length, 32 + (freshLog 0 ts1).length, false⟩)] := by
    refine alistInsert_append _ _ _ ?_
    rw [freshIndex_keys]
    exact hnotin
  dsimp only [freshAcc, Stor.append_log]
  rw [hlog, hvecs, hidx, hins]
  simp [List.replicate_succ']

/-- Characterization of a successful compaction loop run: starting from
the accumulator for already-processed live entries `ts1`, a successful
run extends it by one `(key, value, vector)` triple per remaining live
entry, in order — the value read from the old log at the entry's offset
and the vector sliced at the entry's slot. -/
theorem compactLoop_charac (st : DbState) (hd : 0 < st.storage.dimension) :
    ∀ (es : List (List ℕ × IndexEntry)) (ts1 : List (List ℕ × Json × List ℚ))
      (out : CompactAcc),
      (∀ t ∈ ts1, t.2.2.length = st.storage.dimension) →
      (∀ kv ∈ es, kv.2.deleted = false → kv.1 ∉ ts1.map (fun t => t.1)) →
      ((es.filter (fun kv => !kv.2.deleted)).map Prod.fst).Nodup →
      compactLoop st es (freshAcc st.storage.dimension ts1) = .ok out →
      ∃ ts2, out = freshAcc st.storage.dimension (ts1 ++ ts2) ∧
        ts2.map (fun t => t.1) =
          (es.filter (fun kv => !kv.2.deleted)).map Prod.fst ∧
        (∀ t ∈ ts2, t.2.2.length = st.storage.dimension) ∧
        (∀ t ∈ ts2, ∃ kv a b c rest, kv ∈ es ∧ kv.2.deleted = false ∧
          t.1 = kv.1 ∧
          readRecordStream (st.storage.log.drop (kv.2.data_offset - 32)) =
            .ok ((a, b, t.2.1, c), rest)) := by
  intro es
  induction es with
  | nil =>
    intro ts1 out _ _ _ hloop
    rw [compactLoop_nil] at hloop
    injection hloop with h
    exact ⟨[], by rw [List.append_nil]; exact h.symm, by simp, by simp, by simp⟩
  | cons kv es ih =>
    intro ts1 out hts1 hfresh hnodup hloop
    by_cases hdel : kv.2.deleted
    · rw [compactLoop_cons_del st kv es _ hdel] at hloop
      have hfilter : (kv :: es).filter (fun kv => !kv.2.deleted) =
          es.filter (fun kv => !kv.2.deleted) := by
        rw [List.filter_cons, if_neg (by simp [hdel])]
      obtain ⟨ts2, h1, h2, h3, h4⟩ := ih ts1 out hts1
        (fun kv2 hkv2 hd2 => hfresh kv2 (by simp [hkv2]) hd2)
        (by rwa [hfilter] at hnodup) hloop
      refine ⟨ts2, h1, by rwa [hfilter], h3, ?_⟩
      intro t ht
      obtain ⟨kv2, a, b, c, rest, hm, hdd, hk, hr⟩ := h4 t ht
      exact ⟨kv2, a, b, c, rest, by simp [hm], hdd, hk, hr⟩
    · have hdelf : kv.2.deleted = false := by
        revert hdel
        cases kv.2.deleted <;> simp
      have hfilter : (kv :: es).filter (fun kv => !kv.2.deleted) =
          kv :: es.filter (fun kv => !kv.2.deleted) := by
        rw [List.filter_cons, if_pos (by simp [hdelf])]
      have hknotin : kv.1 ∉ (es.filter (fun kv => !kv.2.deleted)).map Prod.fst := by
        have h5 := hnodup
        rw [hfilter, List.map_cons, List.nodup_cons] at h5
        exact h5.1
      cases hread : st.storage.read_log_record kv.2.data_offset with
      | error e =>
        rw [compactLoop_cons_read_err st kv es _ e hdelf hread] at hloop
        cases hloop
      | ok r =>
        by_cases hvl : ((st.vectors.drop
            (kv.2.id * st.storage.dimension)).take st.storage.dimension).length =
            st.storage.dimension
        · rw [compactLoop_fresh_step st kv es ts1 r hd hts1 hdelf hread hvl
            (hfresh kv (by simp) hdelf)] at hloop
          obtain ⟨ts2, h1, h2, h3, h4⟩ := ih
            (ts1 ++ [(kv.1, r.2.2.1, (st.vectors.drop
              (kv.2.id * st.storage.dimension)).take st.storage.dimension)])
            out
            (by
              intro t ht
              rcases List.mem_append.mp ht with ht | ht
              · exact hts1 t ht
              · rw [List.mem_singleton] at ht
                rw [ht]
                exact hvl)
            (by
              intro kv2 hkv2 hd2
              rw [List.map_append, List.mem_append]
              push_neg
              refine ⟨hfresh kv2 (by simp [hkv2]) hd2, ?_⟩
              simp only [List.map_cons, List.map_nil, List.mem_singleton]
              intro hc
              apply hknotin
              rw [← hc]
              exact List.mem_map.mpr ⟨kv2, List.mem_filter.mpr
                ⟨hkv2, by simp [hd2]⟩, rfl⟩)
            (by
              have h5 := hnodup
              rw [hfilter, List.map_cons, List.nodup_cons] at h5
              exact h5.2)
            hloop
          refine ⟨(kv.1, r.2.2.1, (st.vectors.drop
            (kv.2.id * st.storage.dimension)).take st.storage.dimension) :: ts2,
            ?_, ?_, ?_, ?_⟩
          · rw [h1, List.append_assoc, List.singleton_append]
          · rw [List.map_cons, h2, hfilter, List.map_cons]
          · intro t ht
            rcases List.mem_cons.mp ht with rfl | ht
            · exact hvl
            · exact h3 t ht
          · intro t ht
            rcases List.mem_cons.mp ht with rfl | ht
            · unfold Stor.read_log_record at hread
              cases hs : readRecordStream
                  (st.storage.log.drop (kv.2.data_offset - 32)) with
              | error e =>
                rw [hs] at hread
                cases hread
              | ok pr =>
                rw [hs] at hread
                simp only [] at hread
                injection hread with hpr
                refine ⟨kv, r.1, r.2.1, r.2.2.2, pr.2, by simp, hdelf, rfl, ?_⟩
                rw [hs, ← hpr]
            · obtain ⟨kv2, a, b, c, rest, hm, hdd, hk, hr⟩ := h4 t ht
              exact ⟨kv2, a, b, c, rest, by simp [hm], hdd, hk, hr⟩
        · have happ : (freshAcc st.storage.dimension ts1).stor.append_vector
              ((st.vectors.drop (kv.2.id * st.storage.dimension)).take
                st.storage.dimension) = .error (.dimensionMismatch
              st.storage.dimension ((st.vectors.drop
                (kv.2.id * st.storage.dimension)).take
                  st.storage.dimension).length) := by
            rw [Stor.append_vector, if_pos (show ((st.vectors.drop
              (kv.2.id * st.storage.dimension)).take
                st.storage.dimension).length ≠
              (freshAcc st.storage.dimension ts1).stor.dimension from hvl)]
            rfl
          rw [compactLoop_cons_app_err st kv es _ r _ hdelf hread happ] at hloop
          cases hloop

theorem compact_eq_ok (st : DbState) (acc : CompactAcc)
    (h : compactLoop st (sortById st.index)
      ⟨⟨[], [], 0, st.storage.dimension⟩, [], [], [], []⟩ = .ok acc) :
    st.compact = .ok ⟨⟨acc.stor.log, acc.stor.vfile, acc.stor.vfile.length,
      st.storage.dimension⟩, acc.index, acc.vectors, acc.id_to_key,
      acc.deleted, []⟩ := by
  show (match compactLoop st (sortById st.index)
      ⟨⟨[], [], 0, st.storage.dimension⟩, [], [], [], []⟩ with
    | .error e => (.error e : Except DbError DbState)
    | .ok acc => .ok ⟨⟨acc.stor.log, acc.stor.vfile, acc.stor.vfile.length,
        st.storage.dimension⟩, acc.index, acc.vectors, acc.id_to_key,
        acc.deleted, []⟩) = _
  rw [h]

theorem compact_eq_err (st : DbState) (e : DbError)
    (h : compactLoop st (sortById st.index)
      ⟨⟨[], [], 0, st.storage.dimension⟩, [], [], [], []⟩ = .error e) :
    st.compact = .error e := by
  show (match compactLoop st (sortById st.index)
      ⟨⟨[], [], 0, st.storage.dimension⟩, [], [], [], []⟩ with
    | .error e => (.error e : Except DbError DbState)
    | .ok acc => .ok ⟨⟨acc.stor.log, acc.stor.vfile, acc.stor.vfile.length,
        st.storage.dimension⟩, acc.index, acc.vectors, acc.id_to_key,
        acc.deleted, []⟩) = _
  rw [h]

theorem compact_ok_inv (st st1 : DbState) (h : st.compact = .ok st1) :
    ∃ acc, compactLoop st (sortById st.index)
        ⟨⟨[], [], 0, st.storage.dimension⟩, [], [], [], []⟩ = .ok acc ∧
      st1 = ⟨⟨acc.stor.log, acc.stor.vfile, acc.stor.vfile.length,
        st.storage.dimension⟩, acc.index, acc.vectors, acc.id_to_key,
        acc.deleted, []⟩ := by
  cases hl : compactLoop st (sortById st.index)
      ⟨⟨[], [], 0, st.storage.dimension⟩, [], [], [], []⟩ with
  | error e =>
    rw [compact_eq_err st e hl] at h
    cases h
  | ok acc =>
    rw [compact_eq_ok st acc hl] at h
    injection h with h3
    exact ⟨acc, rfl, h3.symm⟩

/-- The compaction loop over the index of a freshly compacted database
reproduces exactly the same accumulator: every record decodes to the
(key, value) it was encoded from, and every slot yields back its own
vector. -/
theorem compactLoop_fresh_all (st : DbState) (dim : ℕ) (hd : 0 < dim)
    (tsAll : List (List ℕ × Json × List ℚ))
    (hst1 : st.storage.dimension = dim)
    (hst2 : st.storage.log = freshLog 0 tsAll)
    (hst3 : st.vectors = freshVecs tsAll)
    (hb : ∀ t ∈ tsAll, validUtf8 t.1 = true ∧ t.1.length < 2 ^ 32 ∧
      (jsonSerialize t.2.1).length < 2 ^ 32 ∧ t.2.2.length = dim)
    (hk : (tsAll.map (fun t => t.1)).Nodup) :
    ∀ (ts2 ts1 : List (List ℕ × Json × List ℚ)), tsAll = ts1 ++ ts2 →
      compactLoop st
        (freshIndex ts1.length (32 + (freshLog 0 ts1).length) ts2)
        (freshAcc dim ts1) = .ok (freshAcc dim tsAll) := by
  subst hst1
  intro ts2
  induction ts2 with
  | nil =>
    intro ts1 hts
    rw [show freshIndex ts1.length (32 + (freshLog 0 ts1).length) [] = []
      from rfl]
    rw [compactLoop_nil, hts, List.append_nil]
  | cons t ts2 ih =>
    intro ts1 hts
    have hbt := hb t (by rw [hts]; simp)
    have hts1d : ∀ u ∈ ts1, u.2.2.length = st.storage.dimension :=
      fun u hu => (hb u (by rw [hts]; simp [hu])).2.2.2
    have hread : st.storage.read_log_record (32 + (freshLog 0 ts1).length) =
        .ok (ts1.length % 2 ^ 32, t.1, t.2.1, false) := by
      unfold Stor.read_log_record
      rw [show 32 + (freshLog 0 ts1).length - 32 = (freshLog 0 ts1).length
        from by omega]
      rw [hst2, hts, freshLog_append, List.drop_left]
      rw [show freshLog (0 + ts1.length) (t :: ts2) =
        encodeRecord (0 + ts1.length) t.1 (jsonSerialize t.2.1) false ++
          freshLog (0 + ts1.length + 1) ts2 from rfl]
      rw [readRecordStream_encode_mod (0 + ts1.length) t.1
        (jsonSerialize t.2.1) false t.2.1 _ hbt.2.1 hbt.2.2.1 hbt.1
        (jsonParse_serialize t.2.1)]
      simp only []
      rw [Nat.zero_add]
    have hslice : (st.vectors.drop (ts1.length * st.storage.dimension)).take
        st.storage.dimension = t.2.2 := by
      rw [hst3, hts, freshVecs_append]
      rw [show ts1.length * st.storage.dimension = (freshVecs ts1).length
        from (freshVecs_length _ ts1 hts1d).symm]
      rw [List.drop_left]
      rw [show freshVecs (t :: ts2) = t.2.2 ++ freshVecs ts2 from rfl]
      rw [show st.storage.dimension = t.2.2.length from hbt.2.2.2.symm]
      exact List.take_left t.2.2 (freshVecs ts2)
    have hnotin : t.1 ∉ ts1.map (fun u => u.1) := by
      have h5 := hk
      rw [hts, List.map_append, List.nodup_append] at h5
      exact fun hc => h5.2.2 hc (by simp)
    rw [show freshIndex ts1.length (32 + (freshLog 0 ts1).length) (t :: ts2) =
      (t.1, (⟨ts1.length, 32 + (freshLog 0 ts1).length, false⟩ : IndexEntry)) ::
        freshIndex (ts1.length + 1) (32 + (freshLog 0 ts1).length +
          (encodeRecord ts1.length t.1 (jsonSerialize t.2.1) false).length) ts2
      from rfl]
    rw [compactLoop_fresh_step st
      (t.1, (⟨ts1.length, 32 + (freshLog 0 ts1).length, false⟩ : IndexEntry))
      _ ts1 (ts1.length % 2 ^ 32, t.1, t.2.1, false) hd hts1d rfl hread
      (by rw [hslice]; exact hbt.2.2.2) hnotin]
    rw [hslice]
    have hih := ih (ts1 ++ [t])
      (by rw [hts, List.append_assoc, List.singleton_append])
    rw [show (ts1 ++ [t]).length = ts1.length + 1 from by simp] at hih
    rw [show 32 + (freshLog 0 (ts1 ++ [t])).length =
        32 + (freshLog 0 ts1).length +
          (encodeRecord ts1.length t.1 (jsonSerialize t.2.1) false).length
      from by rw [freshLog_append]; simp [freshLog]; omega] at hih
    exact hih

theorem count_true_replicate_false (n : ℕ) :
    (List.replicate n false).count true = 0 := by
  induction n with
  | zero => rfl
  | succ m ih => simp [List.replicate_succ, List.count_cons, ih]

theorem freshDb_stats (dim : ℕ) (ts : List (List ℕ × Json × List ℚ)) :
    (freshDb dim ts).stats.free_list_size = 0 ∧
    (freshDb dim ts).stats.deleted_vectors = 0 ∧
    (freshDb dim ts).stats.total_vectors = ts.length ∧
    (freshDb dim ts).stats.active_vectors = ts.length ∧
    (freshDb dim ts).stats.index_size = ts.length := by
  refine ⟨rfl, ?_, ?_, ?_, ?_⟩
  · show (List.replicate ts.length false).count true = 0
    exact count_true_replicate_false ts.length
  · show (List.replicate ts.length false).length = ts.length
    exact List.length_replicate ts.length false
  · show (List.replicate ts.length false).length -
      (List.replicate ts.length false).count true = ts.length
    rw [count_true_replicate_false ts.length, List.length_replicate]
    omega
  · show (freshIndex 0 32 ts).length = ts.length
    exact freshIndex_length ts 0 32

set_option maxHeartbeats 1000000 in
/-- C8: a successful `compact` installs a dense state — empty free list,
no deleted slots, and `total_vectors = active_vectors = index_size` (each
live key holds exactly one slot) — and a second `compact` immediately
after returns `Ok` with the very same state: every rebuilt record decodes
back to the (key, value) it encodes and every slot returns its own
vector, so the loop reproduces the accumulator. The well-formedness
hypotheses say what the Rust types guarantee: a positive dimension,
distinct index keys (a `HashMap`), UTF-8 keys of `u32` length (Rust
`String`s), and values whose serialization fits a `u32` (the log was
written that way). -/
theorem C8_compact_idempotent (st st1 : DbState)
    (hd : 0 < st.storage.dimension)
    (hnodup : (st.index.map Prod.fst).Nodup)
    (hwf : ∀ kv ∈ st.index, kv.2.deleted = false →
      validUtf8 kv.1 = true ∧ kv.1.length < 2 ^ 32)
    (hval : ∀ kv ∈ st.index, kv.2.deleted = false →
      ∀ a b v c rest, readRecordStream
        (st.storage.log.drop (kv.2.data_offset - 32)) =
          .ok ((a, b, v, c), rest) → (jsonSerialize v).length < 2 ^ 32)
    (h : st.compact = .ok st1) :
    st1.stats.free_list_size = 0 ∧ st1.stats.deleted_vectors = 0 ∧
    st1.stats.total_vectors = st1.stats.active_vectors ∧
    st1.stats.total_vectors = st1.stats.index_size ∧
    st1.compact = .ok st1 := by
  obtain ⟨acc, hloop, hst1⟩ := compact_ok_inv st st1 h
  have hnodup2 : (((sortById st.index).filter
      (fun kv => !kv.2.deleted)).map Prod.fst).Nodup := by
    refine (((sortById_perm st.index).filter _).map Prod.fst).nodup_iff.mpr ?_
    exact List.Nodup.sublist
      ((List.filter_sublist st.index).map Prod.fst) hnodup
  obtain ⟨ts, hout, hkeys, hlens, hreads⟩ := compactLoop_charac st hd
    (sortById st.index) [] acc (by simp) (by simp) hnodup2 hloop
  have hst1f : st1 = freshDb st.storage.dimension ts := by
    rw [hst1, hout]
    rfl
  subst hst1f
  have hb : ∀ t ∈ ts, validUtf8 t.1 = true ∧ t.1.length < 2 ^ 32 ∧
      (jsonSerialize t.2.1).length < 2 ^ 32 ∧
      t.2.2.length = st.storage.dimension := by
    intro t ht
    obtain ⟨kv, a, b, c, rest, hm, hdd, hk1, hr⟩ := hreads t ht
    have hmem : kv ∈ st.index := (sortById_perm st.index).mem_iff.mp hm
    have hw := hwf kv hmem hdd
    exact ⟨by rw [hk1]; exact hw.1, by rw [hk1]; exact hw.2,
      hval kv hmem hdd a b t.2.1 c rest hr, hlens t ht⟩
  have hkn : (ts.map (fun t => t.1)).Nodup := by
    rw [hkeys]
    exact hnodup2
  have hsort : sortById (freshDb st.storage.dimension ts).index =
      (freshDb st.storage.dimension ts).index :=
    sortById_of_pairwise _ (freshIndex_pairwise ts 0 32)
  have hall := compactLoop_fresh_all (freshDb st.storage.dimension ts)
    st.storage.dimension hd ts rfl rfl rfl hb hkn ts [] rfl
  have hidem : (freshDb st.storage.dimension ts).compact =
      .ok (freshDb st.storage.dimension ts) := by
    have h2 := compact_eq_ok (freshDb st.storage.dimension ts)
      (freshAcc st.storage.dimension ts) (by rw [hsort]; exact hall)
    rw [h2]
    rfl
  obtain ⟨s1, s2, s3, s4, s5⟩ := freshDb_stats st.storage.dimension ts
  exact ⟨s1, s2, by rw [s3, s4], by rw [s3, s5], hidem⟩

/-- A one-record database (dimension 1, key "a", value 7, vector [5])
whose log holds exactly the record the index points at; compaction maps
it to itself. -/
def c8St : DbState :=
  ⟨⟨encodeRecord 0 [97] (jsonSerialize (.num 7)) false, [5], 1, 1⟩,
    [([97], ⟨0, 32, false⟩)], [5], [[97]], [false], []⟩

set_option maxRecDepth 8192 in
/-- C8 witness: all hypotheses hold at the one-record database `c8St`
(whose compaction succeeds and returns `c8St` itself), and the theorem
applies to it. -/
theorem C8_compact_idempotent_witness :
    (0 < c8St.storage.dimension ∧ (c8St.index.map Prod.fst).Nodup ∧
      (∀ kv ∈ c8St.index, kv.2.deleted = false →
        validUtf8 kv.1 = true ∧ kv.1.length < 2 ^ 32) ∧
      c8St.compact = .ok c8St) ∧
    (c8St.stats.free_list_size = 0 ∧ c8St.stats.deleted_vectors = 0 ∧
      c8St.stats.total_vectors = c8St.stats.active_vectors ∧
      c8St.stats.total_vectors = c8St.stats.index_size ∧
      c8St.compact = .ok c8St) := by
  have hcomp : c8St.compact = .ok c8St := by decide
  have hv : ∀ kv ∈ c8St.index, kv.2.deleted = false →
      ∀ a b v c rest, readRecordStream
        (c8St.storage.log.drop (kv.2.data_offset - 32)) =
          .ok ((a, b, v, c), rest) → (jsonSerialize v).length < 2 ^ 32 := by
    intro kv hkv hdel a b v c rest hr
    have hkv2 : kv = ([97], (⟨0, 32, false⟩ : IndexEntry)) := by
      simpa [c8St] using hkv
    subst hkv2
    have hcalc : readRecordStream (c8St.storage.log.drop
        ((([97], (⟨0, 32, false⟩ : IndexEntry)) :
          List ℕ × IndexEntry).2.data_offset - 32)) =
        .ok ((0, [97], Json.num 7, false), []) := by decide
    rw [hcalc] at hr
    injection hr with h1
    have h3 := congrArg (fun p => p.1.2.2.1) h1
    simp only [] at h3
    rw [← h3]
    decide
  refine ⟨⟨by decide, by decide, by decide, hcomp⟩, ?_⟩
  exact C8_compact_idempotent c8St c8St (by decide) (by decide) (by decide)
    hv hcomp

end VecDb
